import Mathlib

/-!
# lambda_calc: the bytecode compiler and stack machine of `compile.c`

A shallow embedding of `src/compile.c` (namespace `Compile`), followed by one of the
evaluator of `src/interpret.c` (namespace `Interpret`).

Conventions of the embedding:

* C `int` is `Int` (sizes and indices that the code keeps non-negative are `Nat`);
  `malloc` and `realloc` always succeed, and `size_t` is wide enough for
  `sizeof(int)*buf_size`.  A buffer size or a word count that does not fit an
  `int` (a value above `INT_MAX`, 32 bits) has no defined behaviour in C: the
  compiler stops there with the failure `int_overflow`.
* A `char*` name is a `String`; `strcmp(a, b) == 0` is `a = b`.
* A heap block of `n` words is a `List Int` of length `n`.  An access outside
  the block, a read of a union member under another tag, a `NULL` dereference
  and a read at index 1024 or more of one of the three 1024-entry stacks have no
  defined behaviour in C: the embedding stops there with an explicit fault value.
* The source never compares a stack index with 0: the store `stack[--sp] = x` is
  performed at every depth, so a stack is a list that may hold more than 1024
  entries (those beyond the 1024th lie below index 0 of the array; what else such
  a store overwrites is not modelled).
* `printf` output is not modelled; `longjmp(error, 1)` is an `Except.error`,
  `exit(1)` is the outcome `malformed_result`.
* The `while(pc < prog_len)` loop of `execute_program` is run with a step
  budget (`fuel`), as are the loop of `parse_symbol` and the recursion of the
  interpreter's `eval_expression`.
* Standard input is the list of its unread characters; at its end `getchar` gives
  `EOF`.
-/

namespace Compile

/-! ## Syntax tree (`struct expr`, `struct cenv`) -/

/-- The `struct expr` of the source: a tagged union over symbol, application and lambda. -/
inductive expr where
  | SYMBOL (sym : String)
  | APPLICATION (operator operand : expr)
  | LAMBDA (arg : String) (body : expr)
  deriving Repr, DecidableEq

/-- The `struct cenv` chain of the source: bound names, innermost first; `NULL` is `[]`. -/
abbrev cenv := List String

/-! ## Buffers (`struct buffer`) -/

/-- The `struct buffer` of the source: `buf` is the allocated block (`buf_size` words),
of which the first `buf_ptr` words are in use. -/
structure buffer where
  buf_size : Nat
  buf_ptr : Nat
  buf : List Int
  deriving Repr, DecidableEq

/-- Ways in which one compilation ends without a buffer. -/
inductive failure where
  /-- The `printf("Tried to reference symbol ...")` and `longjmp(error, 1)` exit. -/
  | unbound_symbol (sym : String)
  /-- An access outside an allocated block (undefined in C). -/
  | out_of_block
  /-- A buffer size or word count above `INT_MAX` is stored in an `int`
  (undefined in C). -/
  | int_overflow
  deriving Repr, DecidableEq

/-- The largest value of the C type `int` (32 bits). -/
def INT_MAX : Nat := 2147483647

/-- The used words of a buffer: `buf[0 .. buf_ptr-1]`. -/
def buffer.words (b : buffer) : List Int := b.buf.take b.buf_ptr

/-- The function `alloc_buffer` of the source. -/
def alloc_buffer (init_size : Nat) : buffer :=
  ⟨init_size, 0, List.replicate init_size 0⟩

/-- The C library `realloc` on a block of words: the old contents are kept up to
the new size. -/
def realloc (block : List Int) (n : Nat) : List Int :=
  block.take n ++ List.replicate (n - block.length) 0

/-- The growth step `if(buf_ptr >= buf_size) { buf_size *= 1.5; realloc }` of
`add_to_buffer`: the product is computed in `double` and converted back to `int`,
which truncates it and is defined only up to `INT_MAX`. -/
def grow_buffer (b : buffer) : Except failure buffer :=
  if b.buf_ptr ≥ b.buf_size then
    if b.buf_size * 3 / 2 ≤ INT_MAX then
      .ok ⟨b.buf_size * 3 / 2, b.buf_ptr, realloc b.buf (b.buf_size * 3 / 2)⟩
    else .error .int_overflow
  else .ok b

/-- The function `add_to_buffer` of the source: the growth step, then the store
`buf[buf_ptr++] = val`. -/
def add_to_buffer (b : buffer) (val : Int) : Except failure buffer := do
  let b1 ← grow_buffer b
  if b1.buf_ptr < b1.buf.length then
    .ok ⟨b1.buf_size, b1.buf_ptr + 1, b1.buf.set b1.buf_ptr val⟩
  else .error .out_of_block

/-- The function `merge_bufs` of the source.  The `int` sum `buf_ptr + buf_ptr` and
the conversion to `int` of the `double` value `buf_size + buf_size * 1.5` are
defined only up to `INT_MAX`; the two `memcpy` calls copy the used words of `buf_a`
and then those of `buf_b` into a fresh block. -/
def merge_bufs (buf_a buf_b : buffer) : Except failure buffer :=
  let res_ptr := buf_a.buf_ptr + buf_b.buf_ptr
  let res_size := buf_a.buf_size + buf_b.buf_size * 3 / 2
  if res_ptr ≤ INT_MAX ∧ res_size ≤ INT_MAX then
    if buf_a.buf_ptr ≤ buf_a.buf.length ∧ buf_b.buf_ptr ≤ buf_b.buf.length
        ∧ res_ptr ≤ res_size then
      .ok ⟨res_size, res_ptr,
        buf_a.buf.take buf_a.buf_ptr ++ buf_b.buf.take buf_b.buf_ptr
          ++ List.replicate (res_size - res_ptr) 0⟩
    else .error .out_of_block
  else .error .int_overflow

/-- The function `merge_and_free_bufs` of the source (`free` has no effect here). -/
def merge_and_free_bufs (buf_a buf_b : buffer) : Except failure buffer :=
  merge_bufs buf_a buf_b

/-! ## Opcodes -/

/-- The `opcode` enumeration of the source, in declaration order. -/
inductive opcode where
  | DUP | SWAP
  | JMP | CALL | RET
  | ENV_LOOKUP | EXTEND_ENV
  | PUSH_ENV | POP_ENV | GET_ENV
  | MK_CLOSURE
  | GET_CLOSURE_ENV | GET_CLOSURE_CODE
  | GET_REL_ADDR
  deriving Repr, DecidableEq

/-- The integer value of an enumerator (C numbers them from 0). -/
def opcode.code : opcode → Int
  | .DUP => 0 | .SWAP => 1
  | .JMP => 2 | .CALL => 3 | .RET => 4
  | .ENV_LOOKUP => 5 | .EXTEND_ENV => 6
  | .PUSH_ENV => 7 | .POP_ENV => 8 | .GET_ENV => 9
  | .MK_CLOSURE => 10
  | .GET_CLOSURE_ENV => 11 | .GET_CLOSURE_CODE => 12
  | .GET_REL_ADDR => 13

/-- Which `case` label of the `switch(code)` in `execute_program` a word selects, if any. -/
def opcode.of_word (w : Int) : Option opcode :=
  if w = 0 then some .DUP else if w = 1 then some .SWAP
  else if w = 2 then some .JMP else if w = 3 then some .CALL
  else if w = 4 then some .RET else if w = 5 then some .ENV_LOOKUP
  else if w = 6 then some .EXTEND_ENV else if w = 7 then some .PUSH_ENV
  else if w = 8 then some .POP_ENV else if w = 9 then some .GET_ENV
  else if w = 10 then some .MK_CLOSURE else if w = 11 then some .GET_CLOSURE_ENV
  else if w = 12 then some .GET_CLOSURE_CODE else if w = 13 then some .GET_REL_ADDR
  else none

/-! ## Compiler -/

/-- The `while(cur_env)` loop of `compile_symbol_lookup`, from chain position `cur_env`
with counter `offset`. -/
def compile_symbol_lookup_loop (sym : String) : cenv → Int → Except failure buffer
  | [], _ => .error (.unbound_symbol sym)
  | sym_name :: next, offset =>
    if sym_name = sym then do
      let buf := alloc_buffer 2
      let buf ← add_to_buffer buf opcode.ENV_LOOKUP.code
      let buf ← add_to_buffer buf offset
      pure buf
    else compile_symbol_lookup_loop sym next (offset + 1)

/-- The function `compile_symbol_lookup` of the source. -/
def compile_symbol_lookup (sym : String) (environment : cenv) : Except failure buffer :=
  compile_symbol_lookup_loop sym environment 0

/-- The function `compile_application` of the source after its two recursive calls,
whose results are `ev_operand` and `ev_operator`. -/
def compile_application (ev_operand ev_operator : buffer) : Except failure buffer := do
  let buf ← merge_and_free_bufs ev_operand ev_operator
  let buf ← add_to_buffer buf opcode.DUP.code
  let buf ← add_to_buffer buf opcode.GET_CLOSURE_ENV.code
  let buf ← add_to_buffer buf opcode.PUSH_ENV.code
  let buf ← add_to_buffer buf opcode.SWAP.code
  let buf ← add_to_buffer buf opcode.EXTEND_ENV.code
  let buf ← add_to_buffer buf opcode.GET_CLOSURE_CODE.code
  let buf ← add_to_buffer buf opcode.CALL.code
  pure buf

/-- The function `compile_lambda` of the source after its recursive call, whose
result is `body` (the code of the lambda body under the extended chain); the `int`
sum `body->buf_ptr+2` is defined only up to `INT_MAX`. -/
def compile_lambda (body : buffer) : Except failure buffer := do
  let body ← add_to_buffer body opcode.POP_ENV.code
  let body ← add_to_buffer body opcode.RET.code
  let buf := alloc_buffer 32
  let buf ← add_to_buffer buf opcode.GET_REL_ADDR.code
  let buf ← add_to_buffer buf 6
  let buf ← add_to_buffer buf opcode.GET_ENV.code
  let buf ← add_to_buffer buf opcode.MK_CLOSURE.code
  let buf ← add_to_buffer buf opcode.JMP.code
  let buf ← if body.buf_ptr + 2 ≤ INT_MAX then add_to_buffer buf (body.buf_ptr + 2)
    else .error .int_overflow
  merge_and_free_bufs buf body

/-- The function `compile_expression` of the source; the operand of an application is
compiled before its operator, and a lambda body under the chain extended with `arg`. -/
def compile_expression : expr → cenv → Except failure buffer
  | .SYMBOL sym, environment => compile_symbol_lookup sym environment
  | .APPLICATION operator operand, environment => do
    let ev_operand ← compile_expression operand environment
    let ev_operator ← compile_expression operator environment
    compile_application ev_operand ev_operator
  | .LAMBDA arg body, environment => do
    let body ← compile_expression body (arg :: environment)
    compile_lambda body

/-! ## Run-time values (`struct val`, `struct renv`, `struct closure`) -/

mutual
/-- The `struct val` of the source: a tagged union over an environment, a closure
(`struct closure`: `body_addr`, `bound_env`) and an address. -/
inductive val where
  | ENVIRONMENT (env : renv)
  | CLOSURE (body_addr : Int) (bound_env : renv)
  | ADDRESS (addr : Int)
/-- The `struct renv` chain of the source: `NULL`, or a frame holding a value and the
next frame. -/
inductive renv where
  | NULL
  | frame (value : val) (next : renv)
end

/-- The text that `print_value` of the source prints for a value (`%x` prints an `int`
as an unsigned 32-bit number in hexadecimal). -/
def print_value : val → String
  | .ENVIRONMENT _ => "\x7benvironment\x7d"
  | .CLOSURE _ _ => "<lambda>"
  | .ADDRESS addr => "[address: " ++ String.mk (Nat.toDigits 16 (addr % 2 ^ 32).toNat) ++ "]"

/-! ## Virtual machine (`execute_program`) -/

/-- Points at which `execute_program` leaves defined C behaviour and stops here.  The
store of a push below index 0 of a stack is not among them: it is performed (see
`push`). -/
inductive fault where
  /-- A read or pop at a stack index of 1024 or more. -/
  | stack_underrun
  /-- A read of `->env`, `->cls` or `->addr` from a value carrying another tag. -/
  | wrong_tag
  /-- A dereference of a `NULL` environment in `ENV_LOOKUP`. -/
  | null_env
  /-- A read of `prog[pc]` outside the used words of the program. -/
  | bad_fetch
  deriving Repr, DecidableEq

/-- The state of `execute_program`: the locals `pc` and `env`, and the three global
stacks.  A stack is listed top first; its index (`sp`, `esp`, `rsp`) is 1024 minus the
length of the list. -/
structure vm where
  pc : Int
  env : renv
  object_stack : List val
  env_stack : List renv
  return_stack : List Int

/-- The stack index `sp` of the source. -/
def vm.sp (s : vm) : Int := 1024 - s.object_stack.length

/-- The store `stack[--sp] = x`.  The source does not test the index: the store is
performed at every depth, below index 0 of the array once the stack holds 1024
entries. -/
def push {α : Type} (x : α) (stack : List α) : Except fault (List α) :=
  .ok (x :: stack)

/-- The read `stack[sp++]` on a 1024-entry array. -/
def pop {α : Type} (stack : List α) : Except fault (α × List α) :=
  match stack with
  | [] => .error .stack_underrun
  | x :: rest => .ok (x, rest)

/-- The read `prog[i]`, defined on the used words only. -/
def fetch (prog : List Int) (i : Int) : Except fault Int :=
  if 0 ≤ i then
    match prog[i.toNat]? with
    | some w => .ok w
    | none => .error .bad_fetch
  else .error .bad_fetch

/-- The union read `->env`. -/
def val.get_env : val → Except fault renv
  | .ENVIRONMENT env => .ok env
  | _ => .error .wrong_tag

/-- The union read `->cls`, giving both fields of the closure. -/
def val.get_cls : val → Except fault (Int × renv)
  | .CLOSURE body_addr bound_env => .ok (body_addr, bound_env)
  | _ => .error .wrong_tag

/-- The union read `->addr`. -/
def val.get_addr : val → Except fault Int
  | .ADDRESS addr => .ok addr
  | _ => .error .wrong_tag

/-- The loop `while(tmp_addr--) tmp_env = tmp_env->next;` of `ENV_LOOKUP`, for a
non-negative count. -/
def env_walk : Nat → renv → Except fault renv
  | 0, tmp_env => .ok tmp_env
  | _ + 1, .NULL => .error .null_env
  | n + 1, .frame _ next => env_walk n next

/-- The read `tmp_env->value`. -/
def renv.get_value : renv → Except fault val
  | .NULL => .error .null_env
  | .frame value _ => .ok value

/-- One iteration of the `while(pc < prog_len)` loop of `execute_program`: fetch the
word at `pc`, advance `pc`, and run the selected `case`.  A word that is no opcode
selects no case and only advances `pc`. -/
def step (prog : List Int) (s : vm) : Except fault vm := do
  let code ← fetch prog s.pc
  let pc := s.pc + 1
  match opcode.of_word code with
  | none => pure ⟨pc, s.env, s.object_stack, s.env_stack, s.return_stack⟩
  | some .DUP =>
    let (tmp, _) ← pop s.object_stack
    let st ← push tmp s.object_stack
    pure ⟨pc, s.env, st, s.env_stack, s.return_stack⟩
  | some .SWAP =>
    let (tmp, st) ← pop s.object_stack
    let (tmp2, st) ← pop st
    let st ← push tmp2 st
    let st ← push tmp st
    pure ⟨pc, s.env, st, s.env_stack, s.return_stack⟩
  | some .JMP =>
    let tmp_addr := pc - 1
    let d ← fetch prog pc
    pure ⟨tmp_addr + d, s.env, s.object_stack, s.env_stack, s.return_stack⟩
  | some .CALL =>
    let rst ← push (pc + 1) s.return_stack
    let (tmp, st) ← pop s.object_stack
    let addr ← tmp.get_addr
    pure ⟨addr, s.env, st, s.env_stack, rst⟩
  | some .RET =>
    let (addr, rst) ← pop s.return_stack
    pure ⟨addr, s.env, s.object_stack, s.env_stack, rst⟩
  | some .ENV_LOOKUP =>
    let tmp_addr ← fetch prog pc
    let pc := pc + 1
    if tmp_addr < 0 then .error .null_env
    else
      let tmp_env ← env_walk tmp_addr.toNat s.env
      let value ← tmp_env.get_value
      let st ← push value s.object_stack
      pure ⟨pc, s.env, st, s.env_stack, s.return_stack⟩
  | some .PUSH_ENV =>
    let est ← push s.env s.env_stack
    let (tmp, st) ← pop s.object_stack
    let env ← tmp.get_env
    pure ⟨pc, env, st, est, s.return_stack⟩
  | some .POP_ENV =>
    let (env, est) ← pop s.env_stack
    pure ⟨pc, env, s.object_stack, est, s.return_stack⟩
  | some .EXTEND_ENV =>
    let (value, st) ← pop s.object_stack
    pure ⟨pc, .frame value s.env, st, s.env_stack, s.return_stack⟩
  | some .GET_ENV =>
    let st ← push (.ENVIRONMENT s.env) s.object_stack
    pure ⟨pc, s.env, st, s.env_stack, s.return_stack⟩
  | some .MK_CLOSURE =>
    let (tmp, st) ← pop s.object_stack
    let bound_env ← tmp.get_env
    let (tmp, st) ← pop st
    let body_addr ← tmp.get_addr
    let st ← push (.CLOSURE body_addr bound_env) st
    pure ⟨pc, s.env, st, s.env_stack, s.return_stack⟩
  | some .GET_CLOSURE_ENV =>
    let (tmp, st) ← pop s.object_stack
    let cls ← tmp.get_cls
    let st ← push (.ENVIRONMENT cls.2) st
    pure ⟨pc, s.env, st, s.env_stack, s.return_stack⟩
  | some .GET_CLOSURE_CODE =>
    let (tmp, st) ← pop s.object_stack
    let cls ← tmp.get_cls
    let st ← push (.ADDRESS cls.1) st
    pure ⟨pc, s.env, st, s.env_stack, s.return_stack⟩
  | some .GET_REL_ADDR =>
    let tmp_addr := pc - 1
    let d ← fetch prog pc
    let pc := pc + 1
    let st ← push (.ADDRESS (tmp_addr + d)) s.object_stack
    pure ⟨pc, s.env, st, s.env_stack, s.return_stack⟩

/-- The state after `n` iterations of the loop body from `s` (the loop test is not
applied here; `loop` applies it). -/
def steps (prog : List Int) : Nat → vm → Except fault vm
  | 0, s => .ok s
  | n + 1, s => do
    let s1 ← step prog s
    steps prog n s1

/-- How a call of `execute_program` ends. -/
inductive outcome where
  /-- The `return object_stack[sp]`. -/
  | result (v : val)
  /-- The `printf("Execution ended with more than one item ...")` and `exit(1)`. -/
  | malformed_result
  /-- The execution left defined behaviour. -/
  | undefined (f : fault)
  /-- The loop is still running when the step budget is used up. -/
  | running

/-- The `while(pc < prog_len)` loop of `execute_program` with a budget of `fuel`
iterations: the state in which the loop test fails, if it is reached. -/
def loop (prog : List Int) : Nat → vm → Except fault (Option vm)
  | 0, s => if s.pc < prog.length then .ok none else .ok (some s)
  | fuel + 1, s =>
    if s.pc < prog.length then do
      let s1 ← step prog s
      loop prog fuel s1
    else .ok (some s)

/-- The function `execute_program` of the source, entered with the global stacks of
`g`: `pc` and `env` start at `0` and `NULL`, the loop runs, and the final test
`sp != 1023` decides between `exit(1)` and returning the stack top. -/
def execute_program (fuel : Nat) (buf : buffer) (g : vm) : outcome :=
  match loop buf.words fuel ⟨0, .NULL, g.object_stack, g.env_stack, g.return_stack⟩ with
  | .error f => .undefined f
  | .ok none => .running
  | .ok (some s) =>
    if s.sp ≠ 1023 then .malformed_result
    else
      match s.object_stack with
      | v :: _ => .result v
      | [] => .undefined .stack_underrun

/-- The global stacks at program start: `sp = esp = rsp = 1024`, all three empty. -/
def vm.start : vm := ⟨0, .NULL, [], [], []⟩

/-- One pass of the `while(1)` loop of `main` on a parsed expression, from program
start: compile under the `NULL` chain and, unless compilation took the `longjmp`
exit, execute the compiled code. -/
def main_pass (fuel : Nat) (exp : expr) : Except failure outcome := do
  let compiled_code ← compile_expression exp []
  pure (execute_program fuel compiled_code vm.start)

/-! ## Notions used to state the properties -/

/-- A buffer whose block has the recorded size, whose used part fits into the block,
whose size is at least 2 (so that the growth step of `add_to_buffer` enlarges it) and
at most `INT_MAX` (so that it is the value of an `int`). -/
def buffer.wf (b : buffer) : Prop :=
  b.buf.length = b.buf_size ∧ b.buf_ptr ≤ b.buf_size ∧ 2 ≤ b.buf_size
    ∧ b.buf_size ≤ INT_MAX

/-- The symbol occurrences of an expression, each paired with the argument names of the
lambdas of that expression which enclose the occurrence. -/
def occurrences : expr → List (String × List String)
  | .SYMBOL sym => [(sym, [])]
  | .APPLICATION operator operand => occurrences operator ++ occurrences operand
  | .LAMBDA arg body => (occurrences body).map fun o => (o.1, o.2 ++ [arg])

/-- An occurrence that is neither bound by an enclosing lambda nor named in the chain. -/
def unbound_under (chain : cenv) (o : String × List String) : Prop :=
  o.1 ∉ o.2 ∧ o.1 ∉ chain

/-- The number of frames of an environment chain. -/
def renv.depth : renv → Nat
  | .NULL => 0
  | .frame _ next => next.depth + 1

/-- The number of inline operand words that the `case` of an opcode reads from
`prog[pc]` in `execute_program`: one for `JMP`, `ENV_LOOKUP` and `GET_REL_ADDR`, none
for the other eleven. -/
def opcode.operands : opcode → Nat
  | .JMP => 1
  | .ENV_LOOKUP => 1
  | .GET_REL_ADDR => 1
  | _ => 0

mutual
/-- A value with `k` added to every address in it: address values and closure body
addresses, also those inside captured environments. -/
def val.shift (k : Int) : val → val
  | .ENVIRONMENT env => .ENVIRONMENT (env.shift k)
  | .CLOSURE body_addr bound_env => .CLOSURE (body_addr + k) (bound_env.shift k)
  | .ADDRESS addr => .ADDRESS (addr + k)
/-- An environment chain with `k` added to every address in its values. -/
def renv.shift (k : Int) : renv → renv
  | .NULL => .NULL
  | .frame value next => .frame (value.shift k) (next.shift k)
end

/-- A machine state moved by `k` words: `k` is added to `pc`, to every address in the
environment register and on the operand and environment-save stacks, and to every
return-stack entry. -/
def vm.shift (k : Int) (s : vm) : vm :=
  ⟨s.pc + k, s.env.shift k, s.object_stack.map (val.shift k),
    s.env_stack.map (renv.shift k), s.return_stack.map (· + k)⟩

/-- One decoded instruction: the address of its opcode word, the opcode, and the inline
operand word when the opcode has one. -/
structure instr where
  addr : Nat
  op : opcode
  operand : Option Int

/-- Opcode-driven decoding of a word sequence whose first word has address `p`: each word
in opcode position must be an opcode and is followed by as many operand words as
`opcode.operands` says; the result is `none` when a word in opcode position is no
opcode or an operand word is missing at the end. -/
def decode : Nat → List Int → Option (List instr)
  | _, [] => some []
  | p, w :: tail =>
    match opcode.of_word w with
    | none => none
    | some op =>
      if op.operands = 0 then (decode (p + 1) tail).map (⟨p, op, none⟩ :: ·)
      else
        match tail with
        | [] => none
        | d :: rest => (decode (p + 2) rest).map (⟨p, op, some d⟩ :: ·)

/-- The operands of the `ENV_LOOKUP` instructions of a decoded sequence, in address
order. -/
def lookups (is : List instr) : List Int :=
  is.filterMap fun i => if i.op = opcode.ENV_LOOKUP then i.operand else none

/-- The symbol occurrences of an expression in the order in which
`compile_expression` emits their code (operand before operator), each paired with the
argument names of the enclosing lambdas of the expression, innermost first. -/
def emitted : expr → List (String × List String)
  | .SYMBOL sym => [(sym, [])]
  | .APPLICATION operator operand => emitted operand ++ emitted operator
  | .LAMBDA arg body => (emitted body).map fun o => (o.1, o.2 ++ [arg])

/-- The jump targets of a decoded sequence are instruction boundaries: for every `JMP` or
`GET_REL_ADDR` at address `a` with operand `d`, the address `a + d` is `limit` (the
address right after the last word) or the address of an instruction of the sequence. -/
def targets_ok (limit : Int) (is : List instr) : Prop :=
  ∀ i ∈ is, i.op = opcode.JMP ∨ i.op = opcode.GET_REL_ADDR → ∀ d, i.operand = some d →
    (i.addr : Int) + d = limit ∨ ∃ j ∈ is, (j.addr : Int) = (i.addr : Int) + d

/-- The hop count `n` is the first position of the name of occurrence `o` in the chain
that is in force at the occurrence: the enclosing argument names followed by `chain`. -/
def first_hop (chain : cenv) (n : Int) (o : String × List String) : Prop :=
  ∃ k : Nat, n = (k : Int) ∧ (o.2 ++ chain).get? k = some o.1
    ∧ ∀ j, j < k → (o.2 ++ chain).get? j ≠ some o.1

/-- The term `\x \x ... \x x` with `n` nested lambdas around the symbol `x`. -/
def nested_lambdas : Nat → expr
  | 0 => .SYMBOL "x"
  | n + 1 => .LAMBDA "x" (nested_lambdas n)

/-- The `buf_size` with which the code of `nested_lambdas n` enters `merge_bufs` in
`compile_lambda`: 4 for the symbol (2 words allocated, grown to 3 and to 4 by the two
added words), and `32 + floor(1.5 * s)` for a lambda around a body of size `s`.  For
`n` of at least 1 it is the `buf_size` of the buffer that `compile_expression` returns
for `nested_lambdas n`. -/
def nested_size : Nat → Nat
  | 0 => 4
  | n + 1 => 32 + nested_size n * 3 / 2

/-- The C library `isspace` in the C locale. -/
def isspace (c : Char) : Bool :=
  c = ' ' || c = '\t' || c = '\n' || c = Char.ofNat 11 || c = Char.ofNat 12 || c = '\r'

/-- The C library `isalpha` in the C locale. -/
def isalpha (c : Char) : Bool :=
  ('a' ≤ c && c ≤ 'z') || ('A' ≤ c && c ≤ 'Z')

/-- The array `reserved_chars` of the source, without its terminating NUL. -/
def reserved_chars : List Char := ['(', '\\', ')', '.']

/-- The test `strchr(reserved_chars, c) != NULL`: `strchr` also finds the terminating NUL
of the array. -/
def strchr_reserved (c : Char) : Bool :=
  reserved_chars.contains c || c = Char.ofNat 0

/-- The C library `getchar` on the unread input: the next character, or `none` for
`EOF` at the end of the input. -/
def getchar (input : List Char) : Option Char × List Char :=
  match input with
  | [] => (none, [])
  | c :: rest => (some c, rest)

/-- The C library `ungetc(c, stdin)`; pushing back `EOF` has no effect. -/
def ungetc (c : Option Char) (input : List Char) : List Char :=
  match c with
  | none => input
  | some ch => ch :: input

/-- How a call of `parse_symbol` ends. -/
inductive parse_outcome where
  /-- The returned `SYMBOL` expression, with the input left unread. -/
  | parsed (res : expr) (unread : List Char)
  /-- The `printf("Unexpected character ...")` and `longjmp(error, 1)` exit. -/
  | unexpected (c : Option Char)
  /-- A write outside the name buffer (undefined in C). -/
  | out_of_block
  /-- The `while` loop is still running when the step budget is used up. -/
  | running
  deriving Repr, DecidableEq

/-- The `while(!isspace(c) && strchr(reserved_chars, c) == NULL)` loop of
`parse_symbol` with a budget of `fuel` tests: `c` is the character just read, `buf` the
characters written so far (`idx` is their number), `buf_size` the size of the block.
`EOF` is neither white space nor reserved and is stored as the character 255. -/
def parse_symbol_loop : Nat → Option Char → List Char → Nat → List Char → parse_outcome
  | 0, _, _, _, _ => .running
  | fuel + 1, c, input, buf_size, buf =>
    if !(c.elim false isspace) && !(c.elim false strchr_reserved) then
      let buf_size := if buf.length ≥ buf_size - 1 then buf_size * 3 / 2 else buf_size
      if buf.length < buf_size then
        let (c1, input1) := getchar input
        parse_symbol_loop fuel c1 input1 buf_size (buf ++ [c.getD (Char.ofNat 255)])
      else .out_of_block
    else
      if buf.length < buf_size then .parsed (.SYMBOL (String.mk buf)) (ungetc c input)
      else .out_of_block

/-- The function `parse_symbol` of the source on the unread input, with a budget for
its loop. -/
def parse_symbol (fuel : Nat) (input : List Char) : parse_outcome :=
  let (c, input) := getchar input
  if c.elim false isalpha then
    let (c1, input1) := getchar input
    parse_symbol_loop fuel c1 input1 32 [c.getD (Char.ofNat 255)]
  else .unexpected c

end Compile

/-! # The tree-walking interpreter of `interpret.c`

A shallow embedding of the evaluator of `src/interpret.c`.  A value is a pointer to
an expression node.  The only field that the evaluator writes after parsing is
`environ` of a `struct lambda`; the embedding keeps these fields in a separate heap,
indexed by the identity of the lambda node, and passes the heap through the
evaluation.  The recursion of `eval_expression` is run with a depth budget. -/

namespace Interpret

/-- The `struct expr` of the source.  A `LAMBDA` node carries the identity `lam` of its
`struct lambda` (its address: distinct nodes of a parsed tree have distinct ones), its
argument name and its body; its `environ` field is in the heap. -/
inductive expr where
  | SYMBOL (sym : String)
  | APPLICATION (operator operand : expr)
  | LAMBDA (lam : Nat) (arg : String) (body : expr)
  deriving Repr, DecidableEq

/-- The `struct env` chain of the source: frames of `sym_name` and `sym_val`, innermost
first; `NULL` is `[]`. -/
abbrev env := List (String × expr)

/-- The `environ` fields of the `struct lambda` nodes that have been written so far,
latest write first. -/
abbrev heap := List (Nat × env)

/-- How a call of `eval_expression` ends. -/
inductive outcome where
  /-- The returned expression pointer, with the heap as the call leaves it. -/
  | value (v : expr) (h : heap)
  /-- The `printf("Tried to reference symbol ...")` and `longjmp(error, 1)` exit. -/
  | unbound_symbol (sym : String)
  /-- A read of `->lam` from a node that is no lambda, or of an `environ` field that
  was never written (undefined in C). -/
  | undefined
  /-- The recursion is deeper than the budget. -/
  | running
  deriving Repr, DecidableEq

/-- The function `eval_symbol_lookup` of the source: the value of the first frame with
the name, or `none` for the `longjmp(error, 1)` exit when no frame has it. -/
def eval_symbol_lookup (sym : String) : env → Option expr
  | [] => none
  | (sym_name, sym_val) :: next =>
    if sym_name = sym then some sym_val else eval_symbol_lookup sym next

/-- The function `eval_application` of the source; `eval` stands for its three calls of
`eval_expression`.  The operator is evaluated before the operand, and the body of the
operator is evaluated in the environment that the `environ` field of the operator's
node holds at that moment, extended with one frame for the argument. -/
def eval_application (eval : expr → env → heap → outcome) (operator operand : expr)
    (environment : env) (h : heap) : outcome :=
  match eval operator environment h with
  | .value operator_val h1 =>
    match eval operand environment h1 with
    | .value operand_val h2 =>
      match operator_val with
      | .LAMBDA lam arg body =>
        match h2.lookup lam with
        | some operator_env => eval body ((arg, operand_val) :: operator_env) h2
        | none => .undefined
      | _ => .undefined
    | other => other
  | other => other

/-- The function `eval_expression` of the source, with a budget `fuel` for the depth of
the recursion.  The `LAMBDA` case stores the current environment in the `environ`
field of the node (`exp->lam->environ = environment`) and returns the node itself. -/
def eval_expression : Nat → expr → env → heap → outcome
  | 0, _, _, _ => .running
  | _ + 1, .SYMBOL sym, environment, h =>
    match eval_symbol_lookup sym environment with
    | some sym_val => .value sym_val h
    | none => .unbound_symbol sym
  | fuel + 1, .APPLICATION operator operand, environment, h =>
    eval_application (eval_expression fuel) operator operand environment h
  | _ + 1, .LAMBDA lam arg body, environment, h =>
    .value (.LAMBDA lam arg body) ((lam, environment) :: h)

/-- The expression `(\k (\c1 (\c2 (c1 c2) (k B)) (k A)) K)` with `K = \x \y x`,
`A = \a a` and `B = \b b`, as a parsed tree: the seven lambda nodes are numbered in
the order in which the parser allocates them. -/
def twice_applied : expr :=
  .APPLICATION
    (.LAMBDA 0 "k"
      (.APPLICATION
        (.LAMBDA 1 "c1"
          (.APPLICATION
            (.LAMBDA 2 "c2" (.APPLICATION (.SYMBOL "c1") (.SYMBOL "c2")))
            (.APPLICATION (.SYMBOL "k") (.LAMBDA 3 "b" (.SYMBOL "b")))))
        (.APPLICATION (.SYMBOL "k") (.LAMBDA 4 "a" (.SYMBOL "a")))))
    (.LAMBDA 5 "x" (.LAMBDA 6 "y" (.SYMBOL "x")))

/-- The text that `print_expr` of the source prints for an expression. -/
def print_expr : expr → String
  | .SYMBOL sym => sym
  | .LAMBDA _ arg body => "\\" ++ arg ++ " " ++ print_expr body
  | .APPLICATION operator operand =>
    "(" ++ print_expr operator ++ " " ++ print_expr operand ++ ")"

end Interpret

namespace Compile

/-! ## Buffers: growth and concatenation -/

/-- Writing at index `i` and taking `i + 1` words is the old prefix followed by the new word. -/
theorem take_succ_set {α : Type} (v : α) : ∀ (l : List α) (i : Nat), i < l.length →
    (l.set i v).take (i + 1) = l.take i ++ [v]
  | [], _, h => by simp at h
  | _ :: _, 0, _ => by simp
  | x :: l, i + 1, h => by
    have h1 : i < l.length := by simpa using h
    simp [take_succ_set v l i h1]

/-- A buffer allocated with at least two words, and a size that is an `int`, is well
formed. -/
theorem alloc_buffer_wf (n : Nat) (h : 2 ≤ n) (h2 : n ≤ INT_MAX) : (alloc_buffer n).wf := by
  simp [alloc_buffer, buffer.wf, h, h2]

/-- A freshly allocated buffer has no used words. -/
theorem alloc_buffer_words (n : Nat) : (alloc_buffer n).words = [] := by
  simp [alloc_buffer, buffer.words]

/-- The number of used words of a well-formed buffer is `buf_ptr`. -/
theorem words_length (b : buffer) (h : b.wf) : b.words.length = b.buf_ptr := by
  obtain ⟨h1, h2, _⟩ := h
  simp [buffer.words]; omega

/-- On a well-formed buffer whose growth step, if it is taken, stays within `int`,
`add_to_buffer` stays inside the block, keeps the buffer well formed, and appends the
value to the used words. -/
theorem add_to_buffer_ok (b : buffer) (val : Int) (h : b.wf)
    (hfit : b.buf_size ≤ b.buf_ptr → b.buf_size * 3 / 2 ≤ INT_MAX) :
    ∃ r, add_to_buffer b val = .ok r ∧ r.wf ∧ r.words = b.words ++ [val]
      ∧ r.buf_ptr = b.buf_ptr + 1
      ∧ r.buf_size = (if b.buf_ptr ≥ b.buf_size then b.buf_size * 3 / 2 else b.buf_size)
      ∧ r.buf.get? b.buf_ptr = some val := by
  obtain ⟨size, ptr, block⟩ := b
  obtain ⟨h1, h2, h3, h4⟩ := h
  simp only at h1 h2 h3 h4 hfit
  by_cases hfull : ptr ≥ size
  · have hp : ptr = size := by omega
    subst hp
    have hmax : ptr * 3 / 2 ≤ INT_MAX := hfit (le_refl _)
    have hg : ptr < ptr * 3 / 2 := by omega
    have hlen : (realloc block (ptr * 3 / 2)).length = ptr * 3 / 2 := by
      simp [realloc]; omega
    refine ⟨⟨ptr * 3 / 2, ptr + 1, (realloc block (ptr * 3 / 2)).set ptr val⟩, ?_,
      ⟨?_, ?_, ?_, ?_⟩, ?_, rfl, ?_, ?_⟩
    · simp [add_to_buffer, grow_buffer, hmax, hlen, hg, bind, Except.bind]
    · simp [hlen]
    · show ptr + 1 ≤ ptr * 3 / 2; omega
    · show 2 ≤ ptr * 3 / 2; omega
    · exact hmax
    · have hlt : ptr < (realloc block (ptr * 3 / 2)).length := by omega
      have e1 : List.take ptr (realloc block (ptr * 3 / 2)) = block := by
        have e0 : List.take (ptr * 3 / 2) block = block :=
          List.take_of_length_le (by omega)
        rw [realloc, e0, List.take_append_of_le_length (by omega)]
        exact List.take_of_length_le (by omega)
      simp only [buffer.words]
      rw [take_succ_set val _ ptr hlt, e1, List.take_of_length_le (by omega)]
    · simp
    · have hlt : ptr < (realloc block (ptr * 3 / 2)).length := by omega
      simp [List.get?_eq_getElem?, hlt]
  · have hlt : ptr < block.length := by omega
    refine ⟨⟨size, ptr + 1, block.set ptr val⟩, ?_, ⟨?_, ?_, ?_, ?_⟩, ?_, rfl, ?_, ?_⟩
    · simp [add_to_buffer, grow_buffer, hfull, hlt, bind, Except.bind]
    · simp [h1]
    · show ptr + 1 ≤ size; omega
    · exact h3
    · exact h4
    · simp only [buffer.words]
      exact take_succ_set val _ ptr hlt
    · simp [hfull]
    · simp [List.get?_eq_getElem?, hlt]

/-- On a full well-formed buffer whose enlarged size exceeds `INT_MAX`, `add_to_buffer`
leaves defined behaviour at the conversion to `int`. -/
theorem add_to_buffer_overflow (b : buffer) (val : Int)
    (hfull : b.buf_size ≤ b.buf_ptr) (hbig : INT_MAX < b.buf_size * 3 / 2) :
    add_to_buffer b val = .error .int_overflow := by
  have h1 : ¬ b.buf_size * 3 / 2 ≤ INT_MAX := by omega
  simp [add_to_buffer, grow_buffer, hfull, h1, bind, Except.bind]

/-- On a well-formed buffer `add_to_buffer` either appends the value, keeping the
buffer well formed, or stops at an `int` overflow of the size. -/
theorem add_to_buffer_cases (b : buffer) (val : Int) (h : b.wf) :
    (∃ r, add_to_buffer b val = .ok r ∧ r.wf ∧ r.words = b.words ++ [val]
      ∧ r.buf_ptr = b.buf_ptr + 1)
    ∨ add_to_buffer b val = .error .int_overflow := by
  by_cases hfit : b.buf_size ≤ b.buf_ptr → b.buf_size * 3 / 2 ≤ INT_MAX
  · obtain ⟨r, e, w, ws, p, _⟩ := add_to_buffer_ok b val h hfit
    exact Or.inl ⟨r, e, w, ws, p⟩
  · simp only [Classical.not_imp, not_le] at hfit
    exact Or.inr (add_to_buffer_overflow b val hfit.1 hfit.2)

/-- On a well-formed buffer with a free word `add_to_buffer` does not grow the block. -/
theorem add_to_buffer_room (b : buffer) (val : Int) (h : b.wf)
    (hroom : b.buf_ptr < b.buf_size) :
    ∃ r, add_to_buffer b val = .ok r ∧ r.wf ∧ r.words = b.words ++ [val]
      ∧ r.buf_ptr = b.buf_ptr + 1 ∧ r.buf_size = b.buf_size := by
  obtain ⟨r, e, w, ws, p, sz, _⟩ := add_to_buffer_ok b val h (fun hh => by omega)
  refine ⟨r, e, w, ws, p, ?_⟩
  rw [sz, if_neg (by omega)]

/-- On well-formed buffers whose merged size is an `int`, `merge_bufs` stays inside its
blocks and yields a well-formed buffer whose used words are those of the first followed
by those of the second. -/
theorem merge_bufs_ok (a b : buffer) (ha : a.wf) (hb : b.wf)
    (hfit : a.buf_size + b.buf_size * 3 / 2 ≤ INT_MAX) :
    ∃ r, merge_bufs a b = .ok r ∧ r.wf ∧ r.words = a.words ++ b.words
      ∧ r.buf_ptr = a.buf_ptr + b.buf_ptr
      ∧ r.buf_size = a.buf_size + b.buf_size * 3 / 2 := by
  obtain ⟨sa, pa, ka⟩ := a
  obtain ⟨sb, pb, kb⟩ := b
  obtain ⟨a1, a2, a3, a4⟩ := ha
  obtain ⟨b1, b2, b3, b4⟩ := hb
  simp only at a1 a2 a3 a4 b1 b2 b3 b4 hfit
  have hfit2 : pa + pb ≤ sa + sb * 3 / 2 := by omega
  refine ⟨⟨sa + sb * 3 / 2, pa + pb,
    ka.take pa ++ kb.take pb ++ List.replicate (sa + sb * 3 / 2 - (pa + pb)) 0⟩, ?_,
    ⟨?_, ?_, ?_, ?_⟩, ?_, rfl, rfl⟩
  · simp only [merge_bufs]
    rw [if_pos ⟨by omega, hfit⟩, if_pos]
    exact ⟨by omega, by omega, hfit2⟩
  · simp only [List.length_append, List.length_take, List.length_replicate]
    omega
  · exact hfit2
  · show 2 ≤ sa + sb * 3 / 2; omega
  · exact hfit
  · simp only [buffer.words]
    have hl : (ka.take pa ++ kb.take pb).length = pa + pb := by
      simp only [List.length_append, List.length_take]; omega
    rw [List.take_append_of_le_length (by omega), List.take_of_length_le (by omega)]

/-- When the merged size exceeds `INT_MAX`, `merge_bufs` leaves defined behaviour at
the conversion to `int`. -/
theorem merge_bufs_overflow (a b : buffer)
    (hbig : INT_MAX < a.buf_size + b.buf_size * 3 / 2) :
    merge_bufs a b = .error .int_overflow := by
  simp only [merge_bufs]
  rw [if_neg]
  intro h; omega

/-- On well-formed buffers `merge_bufs` either concatenates the used words, giving a
well-formed buffer, or stops at an `int` overflow of the size. -/
theorem merge_bufs_cases (a b : buffer) (ha : a.wf) (hb : b.wf) :
    (∃ r, merge_bufs a b = .ok r ∧ r.wf ∧ r.words = a.words ++ b.words
      ∧ r.buf_ptr = a.buf_ptr + b.buf_ptr)
    ∨ merge_bufs a b = .error .int_overflow := by
  by_cases hfit : a.buf_size + b.buf_size * 3 / 2 ≤ INT_MAX
  · obtain ⟨r, e, w, ws, p, _⟩ := merge_bufs_ok a b ha hb hfit
    exact Or.inl ⟨r, e, w, ws, p⟩
  · exact Or.inr (merge_bufs_overflow a b (by omega))

/-! ## Compiler: the three cases -/

/-- The lookup loop on a chain without the name takes the unbound-symbol exit. -/
theorem compile_symbol_lookup_loop_unbound (sym : String) :
    ∀ (c : cenv) (offset : Int), sym ∉ c →
      compile_symbol_lookup_loop sym c offset = .error (.unbound_symbol sym)
  | [], _, _ => rfl
  | name :: next, offset, h => by
    have h1 : name ≠ sym := fun e => h (by simp [e])
    have h2 : sym ∉ next := fun e => h (by simp [e])
    simp only [compile_symbol_lookup_loop, h1, if_false]
    exact compile_symbol_lookup_loop_unbound sym next (offset + 1) h2

/-- The lookup loop on a chain with the name emits `ENV_LOOKUP` and the start counter plus
the first position of the name. -/
theorem compile_symbol_lookup_loop_found (sym : String) :
    ∀ (c : cenv) (offset : Int), sym ∈ c →
      ∃ b k, compile_symbol_lookup_loop sym c offset = .ok b ∧ b.wf
        ∧ b.words = [opcode.ENV_LOOKUP.code, offset + (k : Nat)]
        ∧ c.get? k = some sym ∧ ∀ j, j < k → c.get? j ≠ some sym
  | [], _, h => by simp at h
  | name :: next, offset, h => by
    by_cases hn : name = sym
    · obtain ⟨b1, e1, w1, ws1, p1, s1⟩ :=
        add_to_buffer_room (alloc_buffer 2) opcode.ENV_LOOKUP.code
          (alloc_buffer_wf 2 (le_refl _) (by decide)) (by simp [alloc_buffer])
      obtain ⟨b2, e2, w2, ws2, _⟩ := add_to_buffer_room b1 offset w1
        (by rw [p1, s1]; simp [alloc_buffer])
      refine ⟨b2, 0, ?_, w2, ?_, ?_, ?_⟩
      · simp only [compile_symbol_lookup_loop, hn, if_true, bind, Except.bind, e1, e2, pure,
          Except.pure]
      · rw [ws2, ws1, alloc_buffer_words]; simp
      · simp [hn]
      · intro j hj; omega
    · have hmem : sym ∈ next := by
        rcases List.mem_cons.mp h with e | e
        · exact absurd e.symm hn
        · exact e
      obtain ⟨b, k, e, w, ws, hk, hfirst⟩ :=
        compile_symbol_lookup_loop_found sym next (offset + 1) hmem
      refine ⟨b, k + 1, ?_, w, ?_, ?_, ?_⟩
      · simp only [compile_symbol_lookup_loop, hn, if_false]; exact e
      · rw [ws]; simp; omega
      · simpa using hk
      · intro j hj
        cases j with
        | zero => simpa using hn
        | succ j => simpa using hfirst j (by omega)

/-- For well-formed operand and operator code `compile_application` either emits the
operand code, the operator code and the seven-opcode epilogue, or stops at an `int`
overflow of a buffer size. -/
theorem compile_application_cases (a f : buffer) (ha : a.wf) (hf : f.wf) :
    (∃ b, compile_application a f = .ok b ∧ b.wf
      ∧ b.words = a.words ++ f.words ++ [opcode.DUP.code, opcode.GET_CLOSURE_ENV.code,
          opcode.PUSH_ENV.code, opcode.SWAP.code, opcode.EXTEND_ENV.code,
          opcode.GET_CLOSURE_CODE.code, opcode.CALL.code])
    ∨ compile_application a f = .error .int_overflow := by
  rcases merge_bufs_cases a f ha hf with ⟨b0, e0, w0, ws0, _⟩ | e0
  swap
  · exact Or.inr (by
      simp only [compile_application, merge_and_free_bufs, bind, Except.bind, e0])
  rcases add_to_buffer_cases b0 opcode.DUP.code w0 with ⟨b1, e1, w1, ws1, _⟩ | e1
  swap
  · exact Or.inr (by
      simp only [compile_application, merge_and_free_bufs, bind, Except.bind,
        e0, e1])
  rcases add_to_buffer_cases b1 opcode.GET_CLOSURE_ENV.code w1 with ⟨b2, e2, w2, ws2, _⟩ | e2
  swap
  · exact Or.inr (by
      simp only [compile_application, merge_and_free_bufs, bind, Except.bind,
        e0, e1, e2])
  rcases add_to_buffer_cases b2 opcode.PUSH_ENV.code w2 with ⟨b3, e3, w3, ws3, _⟩ | e3
  swap
  · exact Or.inr (by
      simp only [compile_application, merge_and_free_bufs, bind, Except.bind,
        e0, e1, e2, e3])
  rcases add_to_buffer_cases b3 opcode.SWAP.code w3 with ⟨b4, e4, w4, ws4, _⟩ | e4
  swap
  · exact Or.inr (by
      simp only [compile_application, merge_and_free_bufs, bind, Except.bind,
        e0, e1, e2, e3, e4])
  rcases add_to_buffer_cases b4 opcode.EXTEND_ENV.code w4 with ⟨b5, e5, w5, ws5, _⟩ | e5
  swap
  · exact Or.inr (by
      simp only [compile_application, merge_and_free_bufs, bind, Except.bind,
        e0, e1, e2, e3, e4, e5])
  rcases add_to_buffer_cases b5 opcode.GET_CLOSURE_CODE.code w5 with ⟨b6, e6, w6, ws6, _⟩ | e6
  swap
  · exact Or.inr (by
      simp only [compile_application, merge_and_free_bufs, bind, Except.bind,
        e0, e1, e2, e3, e4, e5, e6])
  rcases add_to_buffer_cases b6 opcode.CALL.code w6 with ⟨b7, e7, w7, ws7, _⟩ | e7
  swap
  · exact Or.inr (by
      simp only [compile_application, merge_and_free_bufs, bind, Except.bind,
        e0, e1, e2, e3, e4, e5, e6, e7])
  refine Or.inl ⟨b7, ?_, w7, ?_⟩
  · simp only [compile_application, merge_and_free_bufs, bind, Except.bind, pure, Except.pure,
      e0, e1, e2, e3, e4, e5, e6, e7]
  · rw [ws7, ws6, ws5, ws4, ws3, ws2, ws1, ws0]; simp

/-- For well-formed body code `compile_lambda` either emits the six-word header, the
body code, `POP_ENV` and `RET`, or stops at an `int` overflow of a buffer size. -/
theorem compile_lambda_cases (body : buffer) (hb : body.wf) :
    (∃ b, compile_lambda body = .ok b ∧ b.wf
      ∧ b.words = [opcode.GET_REL_ADDR.code, 6, opcode.GET_ENV.code, opcode.MK_CLOSURE.code,
          opcode.JMP.code, (body.words.length : Int) + 4] ++ body.words
          ++ [opcode.POP_ENV.code, opcode.RET.code])
    ∨ compile_lambda body = .error .int_overflow := by
  rcases add_to_buffer_cases body opcode.POP_ENV.code hb with ⟨c1, f1, v1, vs1, p1⟩ | f1
  swap
  · exact Or.inr (by simp only [compile_lambda, bind, Except.bind, f1])
  rcases add_to_buffer_cases c1 opcode.RET.code v1 with ⟨c2, f2, v2, vs2, p2⟩ | f2
  swap
  · exact Or.inr (by simp only [compile_lambda, bind, Except.bind, f1, f2])
  rcases add_to_buffer_cases (alloc_buffer 32) opcode.GET_REL_ADDR.code
    (alloc_buffer_wf 32 (by decide) (by decide)) with ⟨b1, e1, w1, ws1, _⟩ | e1
  swap
  · exact Or.inr (by
      simp only [compile_lambda, bind, Except.bind, f1, f2, e1])
  rcases add_to_buffer_cases b1 6 w1 with ⟨b2, e2, w2, ws2, _⟩ | e2
  swap
  · exact Or.inr (by
      simp only [compile_lambda, bind, Except.bind, f1, f2, e1, e2])
  rcases add_to_buffer_cases b2 opcode.GET_ENV.code w2 with ⟨b3, e3, w3, ws3, _⟩ | e3
  swap
  · exact Or.inr (by
      simp only [compile_lambda, bind, Except.bind, f1, f2, e1, e2, e3])
  rcases add_to_buffer_cases b3 opcode.MK_CLOSURE.code w3 with ⟨b4, e4, w4, ws4, _⟩ | e4
  swap
  · exact Or.inr (by
      simp only [compile_lambda, bind, Except.bind, f1, f2, e1, e2, e3, e4])
  rcases add_to_buffer_cases b4 opcode.JMP.code w4 with ⟨b5, e5, w5, ws5, _⟩ | e5
  swap
  · exact Or.inr (by
      simp only [compile_lambda, bind, Except.bind, f1, f2, e1, e2, e3, e4, e5])
  by_cases hp : c2.buf_ptr + 2 ≤ INT_MAX
  swap
  · exact Or.inr (by
      simp only [compile_lambda, bind, Except.bind, f1, f2, e1, e2, e3, e4, e5, hp, if_false])
  rcases add_to_buffer_cases b5 ((c2.buf_ptr : Int) + 2) w5 with ⟨b6, e6, w6, ws6, _⟩ | e6
  swap
  · exact Or.inr (by
      simp only [compile_lambda, bind, Except.bind, f1, f2, e1, e2, e3, e4, e5, hp, if_true,
        e6])
  rcases merge_bufs_cases b6 c2 w6 v2 with ⟨b7, e7, w7, ws7, _⟩ | e7
  swap
  · exact Or.inr (by
      simp only [compile_lambda, merge_and_free_bufs, bind, Except.bind, f1, f2, e1, e2, e3,
        e4, e5, hp, if_true, e6, e7])
  refine Or.inl ⟨b7, ?_, w7, ?_⟩
  · simp only [compile_lambda, merge_and_free_bufs, bind, Except.bind, pure, Except.pure,
      f1, f2, e1, e2, e3, e4, e5, hp, if_true, e6, e7]
  · rw [ws7, ws6, ws5, ws4, ws3, ws2, ws1, alloc_buffer_words, vs2, vs1, p2, p1,
      words_length body hb]
    simp; omega

/-- Compilation yields a well-formed buffer and no occurrence is unbound, or takes the
unbound-symbol exit naming an unbound occurrence, or stops at an `int` overflow of a
buffer size. -/
theorem compile_expression_cases (e : expr) : ∀ c : cenv,
    (∃ b, compile_expression e c = .ok b ∧ b.wf ∧ ∀ o ∈ occurrences e, ¬ unbound_under c o)
    ∨ (∃ s, compile_expression e c = .error (.unbound_symbol s)
        ∧ ∃ o ∈ occurrences e, o.1 = s ∧ unbound_under c o)
    ∨ compile_expression e c = .error .int_overflow := by
  induction e with
  | SYMBOL sym =>
    intro c
    by_cases h : sym ∈ c
    · obtain ⟨b, k, e, w, _⟩ := compile_symbol_lookup_loop_found sym c 0 h
      exact Or.inl ⟨b, e, w, by simp [occurrences, unbound_under, h]⟩
    · exact Or.inr (Or.inl ⟨sym, compile_symbol_lookup_loop_unbound sym c 0 h,
        by simp [occurrences, unbound_under, h]⟩)
  | APPLICATION operator operand ihf iha =>
    intro c
    rcases iha c with ⟨ba, ea, wa, na⟩ | ⟨s, ea, o, ho, hs, hu⟩ | ea
    · rcases ihf c with ⟨bf, ef, wf, nf⟩ | ⟨s, ef, o, ho, hs, hu⟩ | ef
      · rcases compile_application_cases ba bf wa wf with ⟨b, e, w, _⟩ | e
        · refine Or.inl ⟨b, ?_, w, ?_⟩
          · simp only [compile_expression, ea, ef, bind, Except.bind]; exact e
          · intro o ho
            rcases List.mem_append.mp ho with h | h
            · exact nf o h
            · exact na o h
        · refine Or.inr (Or.inr ?_)
          simp only [compile_expression, ea, ef, bind, Except.bind]; exact e
      · refine Or.inr (Or.inl ⟨s, ?_, o, List.mem_append.mpr (Or.inl ho), hs, hu⟩)
        simp only [compile_expression, ea, ef, bind, Except.bind]
      · refine Or.inr (Or.inr ?_)
        simp only [compile_expression, ea, ef, bind, Except.bind]
    · refine Or.inr (Or.inl ⟨s, ?_, o, List.mem_append.mpr (Or.inr ho), hs, hu⟩)
      simp only [compile_expression, ea, bind, Except.bind]
    · refine Or.inr (Or.inr ?_)
      simp only [compile_expression, ea, bind, Except.bind]
  | LAMBDA arg body ih =>
    intro c
    rcases ih (arg :: c) with ⟨bb, eb, wb, nb⟩ | ⟨s, eb, o, ho, hs, hu⟩ | eb
    · rcases compile_lambda_cases bb wb with ⟨b, e, w, _⟩ | e
      · refine Or.inl ⟨b, ?_, w, ?_⟩
        · simp only [compile_expression, eb, bind, Except.bind]; exact e
        · intro o ho
          obtain ⟨o', ho', rfl⟩ := List.mem_map.mp ho
          intro hu
          apply nb o' ho'
          simp only [unbound_under, List.mem_append, List.mem_singleton, List.mem_cons,
            not_or] at hu ⊢
          tauto
      · refine Or.inr (Or.inr ?_)
        simp only [compile_expression, eb, bind, Except.bind]; exact e
    · refine Or.inr (Or.inl
        ⟨s, ?_, (o.1, o.2 ++ [arg]), List.mem_map.mpr ⟨o, ho, rfl⟩, hs, ?_⟩)
      · simp only [compile_expression, eb, bind, Except.bind]
      · simp only [unbound_under, List.mem_append, List.mem_singleton, List.mem_cons,
          not_or] at hu ⊢
        tauto
    · refine Or.inr (Or.inr ?_)
      simp only [compile_expression, eb, bind, Except.bind]

/-- Every buffer returned by `compile_expression` is well formed. -/
theorem compile_expression_wf (e : expr) (c : cenv) (b : buffer)
    (h : compile_expression e c = .ok b) : b.wf := by
  rcases compile_expression_cases e c with ⟨b', e', w, _⟩ | ⟨s, e', _⟩ | e'
  · rw [h] at e'; cases e'; exact w
  · rw [h] at e'; cases e'
  · rw [h] at e'; cases e'

/-- When the application of two compiled expressions compiles, its words are given by
`compile_application` on the two buffers. -/
theorem compile_application_inv (a f b : buffer) (ha : a.wf) (hf : f.wf)
    (h : compile_application a f = .ok b) :
    b.wf ∧ b.words = a.words ++ f.words ++ [opcode.DUP.code, opcode.GET_CLOSURE_ENV.code,
          opcode.PUSH_ENV.code, opcode.SWAP.code, opcode.EXTEND_ENV.code,
          opcode.GET_CLOSURE_CODE.code, opcode.CALL.code] := by
  rcases compile_application_cases a f ha hf with ⟨b', e, w, ws⟩ | e
  · rw [h] at e; cases e; exact ⟨w, ws⟩
  · rw [h] at e; cases e

/-- When a lambda over a compiled body compiles, its words are the header, the body code,
`POP_ENV` and `RET`. -/
theorem compile_lambda_inv (body b : buffer) (hb : body.wf)
    (h : compile_lambda body = .ok b) :
    b.wf ∧ b.words = [opcode.GET_REL_ADDR.code, 6, opcode.GET_ENV.code,
          opcode.MK_CLOSURE.code, opcode.JMP.code, (body.words.length : Int) + 4]
          ++ body.words ++ [opcode.POP_ENV.code, opcode.RET.code] := by
  rcases compile_lambda_cases body hb with ⟨b', e, w, ws⟩ | e
  · rw [h] at e; cases e; exact ⟨w, ws⟩
  · rw [h] at e; cases e

/-- A compiled application has compiled parts: the operand and the operator compile, and
the result is `compile_application` of their code. -/
theorem compile_expression_app_inv (f a : expr) (chain : cenv) (b : buffer)
    (h : compile_expression (.APPLICATION f a) chain = .ok b) :
    ∃ ba bf, compile_expression a chain = .ok ba ∧ compile_expression f chain = .ok bf
      ∧ compile_application ba bf = .ok b := by
  simp only [compile_expression, bind, Except.bind] at h
  cases ea : compile_expression a chain with
  | error x => rw [ea] at h; cases h
  | ok ba =>
    cases ef : compile_expression f chain with
    | error x => rw [ea, ef] at h; cases h
    | ok bf =>
      rw [ea, ef] at h
      exact ⟨ba, bf, rfl, rfl, h⟩

/-- A compiled lambda has a compiled body, and the result is `compile_lambda` of its
code. -/
theorem compile_expression_lam_inv (x : String) (body : expr) (chain : cenv) (b : buffer)
    (h : compile_expression (.LAMBDA x body) chain = .ok b) :
    ∃ bb, compile_expression body (x :: chain) = .ok bb ∧ compile_lambda bb = .ok b := by
  simp only [compile_expression, bind, Except.bind] at h
  cases eb : compile_expression body (x :: chain) with
  | error e => rw [eb] at h; cases h
  | ok bb =>
    rw [eb] at h
    exact ⟨bb, rfl, h⟩

/-- Compiling an application whose parts compile is `compile_application` on their
code. -/
theorem compile_expression_app_eq (f a : expr) (chain : cenv) (ba bf : buffer)
    (ha : compile_expression a chain = .ok ba) (hf : compile_expression f chain = .ok bf) :
    compile_expression (.APPLICATION f a) chain = compile_application ba bf := by
  simp only [compile_expression, ha, hf, bind, Except.bind]

/-- An application whose operand does not compile fails in the same way, before the
operator is looked at. -/
theorem compile_expression_app_operand_error (f a : expr) (chain : cenv) (x : failure)
    (ha : compile_expression a chain = .error x) :
    compile_expression (.APPLICATION f a) chain = .error x := by
  simp only [compile_expression, ha, bind, Except.bind]

/-- Compiling a lambda whose body compiles is `compile_lambda` on the code of the body. -/
theorem compile_expression_lam_eq (x : String) (body : expr) (chain : cenv) (bb : buffer)
    (hb : compile_expression body (x :: chain) = .ok bb) :
    compile_expression (.LAMBDA x body) chain = compile_lambda bb := by
  simp only [compile_expression, hb, bind, Except.bind]

/-- A compilation that returns a buffer did not stop at an `int` overflow. -/
theorem ne_int_overflow_of_ok (r : Except failure buffer) (h : r.toBool = true) :
    r ≠ .error .int_overflow := by
  intro e
  rw [e] at h
  cases h

/-- When the body has room for its two closing words and the merged size is an `int`,
`compile_lambda` computes that size and adds eight words. -/
theorem compile_lambda_fits (body : buffer) (hb : body.wf)
    (hroom : body.buf_ptr + 2 ≤ body.buf_size)
    (hfit : 32 + body.buf_size * 3 / 2 ≤ INT_MAX) :
    ∃ b, compile_lambda body = .ok b ∧ b.wf
      ∧ b.buf_size = 32 + body.buf_size * 3 / 2 ∧ b.buf_ptr = body.buf_ptr + 8 := by
  obtain ⟨c1, f1, v1, _, p1, z1⟩ := add_to_buffer_room body opcode.POP_ENV.code hb (by omega)
  obtain ⟨c2, f2, v2, _, p2, z2⟩ := add_to_buffer_room c1 opcode.RET.code v1 (by omega)
  have a0 : (alloc_buffer 32).buf_ptr = 0 ∧ (alloc_buffer 32).buf_size = 32 := ⟨rfl, rfl⟩
  obtain ⟨b1, e1, w1, _, q1, y1⟩ := add_to_buffer_room (alloc_buffer 32)
    opcode.GET_REL_ADDR.code (alloc_buffer_wf 32 (by decide) (by decide)) (by omega)
  obtain ⟨b2, e2, w2, _, q2, y2⟩ := add_to_buffer_room b1 6 w1 (by omega)
  obtain ⟨b3, e3, w3, _, q3, y3⟩ := add_to_buffer_room b2 opcode.GET_ENV.code w2 (by omega)
  obtain ⟨b4, e4, w4, _, q4, y4⟩ := add_to_buffer_room b3 opcode.MK_CLOSURE.code w3 (by omega)
  obtain ⟨b5, e5, w5, _, q5, y5⟩ := add_to_buffer_room b4 opcode.JMP.code w4 (by omega)
  obtain ⟨b6, e6, w6, _, q6, y6⟩ := add_to_buffer_room b5 ((c2.buf_ptr : Int) + 2) w5
    (by omega)
  obtain ⟨b7, e7, w7, _, q7, y7⟩ := merge_bufs_ok b6 c2 w6 v2 (by omega)
  have hp : c2.buf_ptr + 2 ≤ INT_MAX := by omega
  refine ⟨b7, ?_, w7, by omega, by omega⟩
  simp only [compile_lambda, merge_and_free_bufs, bind, Except.bind, pure, Except.pure,
    f1, f2, e1, e2, e3, e4, e5, hp, if_true, e6, e7]

/-- When the body has room for its two closing words and the merged size exceeds
`INT_MAX`, `compile_lambda` stops at the `int` overflow. -/
theorem compile_lambda_overflow (body : buffer) (hb : body.wf)
    (hroom : body.buf_ptr + 2 ≤ body.buf_size)
    (hbig : INT_MAX < 32 + body.buf_size * 3 / 2) :
    compile_lambda body = .error .int_overflow := by
  obtain ⟨c1, f1, v1, _, p1, z1⟩ := add_to_buffer_room body opcode.POP_ENV.code hb (by omega)
  obtain ⟨c2, f2, v2, _, p2, z2⟩ := add_to_buffer_room c1 opcode.RET.code v1 (by omega)
  have a0 : (alloc_buffer 32).buf_ptr = 0 ∧ (alloc_buffer 32).buf_size = 32 := ⟨rfl, rfl⟩
  obtain ⟨b1, e1, w1, _, q1, y1⟩ := add_to_buffer_room (alloc_buffer 32)
    opcode.GET_REL_ADDR.code (alloc_buffer_wf 32 (by decide) (by decide)) (by omega)
  obtain ⟨b2, e2, w2, _, q2, y2⟩ := add_to_buffer_room b1 6 w1 (by omega)
  obtain ⟨b3, e3, w3, _, q3, y3⟩ := add_to_buffer_room b2 opcode.GET_ENV.code w2 (by omega)
  obtain ⟨b4, e4, w4, _, q4, y4⟩ := add_to_buffer_room b3 opcode.MK_CLOSURE.code w3 (by omega)
  obtain ⟨b5, e5, w5, _, q5, y5⟩ := add_to_buffer_room b4 opcode.JMP.code w4 (by omega)
  by_cases hp : c2.buf_ptr + 2 ≤ INT_MAX
  · obtain ⟨b6, e6, w6, _, q6, y6⟩ := add_to_buffer_room b5 ((c2.buf_ptr : Int) + 2) w5
      (by omega)
    have e7 := merge_bufs_overflow b6 c2 (by omega)
    simp only [compile_lambda, merge_and_free_bufs, bind, Except.bind, pure, Except.pure,
      f1, f2, e1, e2, e3, e4, e5, hp, if_true, e6, e7]
  · simp only [compile_lambda, bind, Except.bind, f1, f2, e1, e2, e3, e4, e5, hp, if_false]

/-- The sizes of the nested lambdas do not decrease, and leave room for two more words. -/
theorem nested_size_bounds (n : Nat) :
    nested_size n ≤ nested_size (n + 1) ∧ 8 * n + 4 ≤ nested_size n := by
  induction n with
  | zero => decide
  | succ n ih =>
    have e1 : nested_size (n + 1) = 32 + nested_size n * 3 / 2 := rfl
    have e2 : nested_size (n + 1 + 1) = 32 + nested_size (n + 1) * 3 / 2 := rfl
    omega

/-- As long as their sizes are `int` values, nested lambdas compile, to a buffer of the
size `nested_size` with eight words for each lambda and two for the symbol. -/
theorem nested_lambdas_compile : ∀ (n : Nat) (chain : cenv),
    nested_size (n + 1) ≤ INT_MAX →
    ∃ b, compile_expression (nested_lambdas (n + 1)) chain = .ok b ∧ b.wf
      ∧ b.buf_size = nested_size (n + 1) ∧ b.buf_ptr = 8 * (n + 1) + 2
  | 0, chain, _ =>
    ⟨⟨38, 10, [13, 6, 9, 10, 2, 6, 5, 0, 8, 4] ++ List.replicate 28 0⟩, rfl,
      ⟨rfl, by decide, by decide, by decide⟩, rfl, rfl⟩
  | n + 1, chain, h => by
    have e2 : nested_size (n + 1 + 1) = 32 + nested_size (n + 1) * 3 / 2 := rfl
    have hb := nested_size_bounds (n + 1)
    obtain ⟨bb, eb, wb, zb, pb⟩ := nested_lambdas_compile n ("x" :: chain) (by omega)
    obtain ⟨b, e, w, z, p⟩ := compile_lambda_fits bb wb (by omega) (by omega)
    refine ⟨b, ?_, w, by omega, by omega⟩
    rw [← e]
    exact compile_expression_lam_eq "x" (nested_lambdas (n + 1)) chain bb eb

/-- The first nesting depth whose size is no `int` value does not compile: the
conversion of the merged size to `int` overflows. -/
theorem nested_lambdas_overflow (n : Nat) (chain : cenv)
    (h : nested_size (n + 1) ≤ INT_MAX) (hbig : INT_MAX < nested_size (n + 2)) :
    compile_expression (nested_lambdas (n + 2)) chain = .error .int_overflow := by
  have e2 : nested_size (n + 2) = 32 + nested_size (n + 1) * 3 / 2 := rfl
  have hb := nested_size_bounds (n + 1)
  obtain ⟨bb, eb, wb, zb, pb⟩ := nested_lambdas_compile n ("x" :: chain) h
  have e := compile_lambda_overflow bb wb (by omega) (by omega)
  rw [← e]
  exact compile_expression_lam_eq "x" (nested_lambdas (n + 1)) chain bb eb

/-- The numbers: 42 nested lambdas need 1682780553 words, 43 would need 2524170861. -/
theorem nested_size_values :
    nested_size 42 = 1682780553 ∧ nested_size 43 = 2524170861 := by
  decide

/-! ## Virtual machine: single instructions and runs -/

/-- Reading inside the middle part of a three-part program. -/
theorem fetch_append (P W R : List Int) (i : Nat) (w : Int) (h : W.get? i = some w) :
    fetch (P ++ W ++ R) ((P.length : Int) + (i : Int)) = .ok w := by
  have hi : i < W.length := by
    rcases Nat.lt_or_ge i W.length with h1 | h1
    · exact h1
    · rw [List.get?_eq_none.mpr h1] at h; cases h
  have hnn : (0 : Int) ≤ (P.length : Int) + (i : Int) := by omega
  have htn : ((P.length : Int) + (i : Int)).toNat = P.length + i := by omega
  have hget : (P ++ W ++ R)[P.length + i]? = some w := by
    rw [List.append_assoc, List.getElem?_append_right (by omega)]
    rw [List.getElem?_append_left (by omega)]
    simpa [List.get?_eq_getElem?] using h
  simp only [fetch, hnn, if_true, htn, hget]

/-- The `GET_REL_ADDR` case. -/
theorem step_GET_REL_ADDR (prog : List Int) (s : vm) (d : Int)
    (h1 : fetch prog s.pc = .ok opcode.GET_REL_ADDR.code)
    (h2 : fetch prog (s.pc + 1) = .ok d) :
    step prog s = .ok ⟨s.pc + 2, s.env, .ADDRESS (s.pc + d) :: s.object_stack, s.env_stack,
      s.return_stack⟩ := by
  have e1 : s.pc + 1 - 1 + d = s.pc + d := by omega
  have e2 : s.pc + 1 + 1 = s.pc + 2 := by omega
  simp [step, h1, h2, opcode.code, opcode.of_word, push, bind, Except.bind, pure,
    Except.pure, e1, e2]

/-- The `GET_ENV` case. -/
theorem step_GET_ENV (prog : List Int) (s : vm)
    (h1 : fetch prog s.pc = .ok opcode.GET_ENV.code) :
    step prog s = .ok ⟨s.pc + 1, s.env, .ENVIRONMENT s.env :: s.object_stack, s.env_stack,
      s.return_stack⟩ := by
  simp [step, h1, opcode.code, opcode.of_word, push, bind, Except.bind, pure,
    Except.pure]

/-- The `MK_CLOSURE` case on an environment above an address. -/
theorem step_MK_CLOSURE (prog : List Int) (s : vm) (bound_env : renv) (body_addr : Int)
    (rest : List val)
    (h1 : fetch prog s.pc = .ok opcode.MK_CLOSURE.code)
    (hst : s.object_stack = .ENVIRONMENT bound_env :: .ADDRESS body_addr :: rest) :
    step prog s = .ok ⟨s.pc + 1, s.env, .CLOSURE body_addr bound_env :: rest, s.env_stack,
      s.return_stack⟩ := by
  simp [step, h1, hst, opcode.code, opcode.of_word, push, pop, val.get_env, val.get_addr,
    bind, Except.bind, pure, Except.pure]

/-- The `JMP` case. -/
theorem step_JMP (prog : List Int) (s : vm) (d : Int)
    (h1 : fetch prog s.pc = .ok opcode.JMP.code) (h2 : fetch prog (s.pc + 1) = .ok d) :
    step prog s = .ok ⟨s.pc + d, s.env, s.object_stack, s.env_stack, s.return_stack⟩ := by
  have e1 : s.pc + 1 - 1 + d = s.pc + d := by omega
  simp [step, h1, h2, opcode.code, opcode.of_word, bind, Except.bind, pure, Except.pure, e1]

/-- A run of `n` steps that passes the loop test before each step and fails it afterwards
is what the loop computes, for every budget of at least `n`. -/
theorem loop_of_steps (prog : List Int) : ∀ (n : Nat) (s s' : vm), steps prog n s = .ok s' →
    (∀ i, i < n → ∃ si, steps prog i s = .ok si ∧ si.pc < prog.length) →
    ¬ s'.pc < prog.length → ∀ fuel, n ≤ fuel → loop prog fuel s = .ok (some s')
  | 0, s, s', h, _, hend, fuel, _ => by
    simp only [steps] at h
    cases h
    cases fuel <;> simp [loop, hend]
  | n + 1, s, s', h, hrun, hend, fuel, hfuel => by
    obtain ⟨s0, h0, hlt⟩ := hrun 0 (by omega)
    simp only [steps] at h0
    cases h0
    cases hstep : step prog s with
    | error f => simp [steps, hstep, bind, Except.bind] at h
    | ok s1 =>
      have h1 : steps prog n s1 = .ok s' := by
        simpa [steps, hstep, bind, Except.bind] using h
      have hrun1 : ∀ i, i < n → ∃ si, steps prog i s1 = .ok si ∧ si.pc < prog.length := by
        intro i hi
        obtain ⟨si, hsi, hpc⟩ := hrun (i + 1) (by omega)
        exact ⟨si, by simpa [steps, hstep, bind, Except.bind] using hsi, hpc⟩
      obtain ⟨fuel1, rfl⟩ : ∃ m, fuel = m + 1 := ⟨fuel - 1, by omega⟩
      simp only [loop, hlt, if_true, hstep, bind, Except.bind]
      exact loop_of_steps prog n s1 s' h1 hrun1 hend fuel1 (by omega)

/-- The shape of the code of every lambda that compiles. -/
theorem compile_lambda_words (x : String) (body : expr) (chain : cenv) (b : buffer)
    (hc : compile_expression (.LAMBDA x body) chain = .ok b) :
    ∃ B : List Int, b.words = [opcode.GET_REL_ADDR.code, 6, opcode.GET_ENV.code,
      opcode.MK_CLOSURE.code, opcode.JMP.code, (B.length : Int) + 4] ++ B
      ++ [opcode.POP_ENV.code, opcode.RET.code] := by
  obtain ⟨bb, hb, hl⟩ := compile_expression_lam_inv x body chain b hc
  exact ⟨bb.words, (compile_lambda_inv bb b (compile_expression_wf _ _ _ hb) hl).2⟩

/-- The four header steps of a lambda's code placed at offset `P.length`. -/
theorem lambda_header_steps (x : String) (body : expr) (chain : cenv) (b : buffer)
    (P R : List Int) (s : vm)
    (hc : compile_expression (.LAMBDA x body) chain = .ok b)
    (hpc : s.pc = P.length) :
    steps (P ++ b.words ++ R) 4 s = .ok ⟨(P.length : Int) + b.words.length, s.env,
        .CLOSURE ((P.length : Int) + 6) s.env :: s.object_stack, s.env_stack, s.return_stack⟩
    ∧ (∀ i, i < 4 → ∃ si, steps (P ++ b.words ++ R) i s = .ok si
        ∧ (P.length : Int) ≤ si.pc ∧ si.pc < (P.length : Int) + 6)
    ∧ (6 : Int) < b.words.length := by
  obtain ⟨B, ws⟩ := compile_lambda_words x body chain b hc
  obtain ⟨pc, env, st, est, rst⟩ := s
  simp only at hpc
  subst hpc
  have hlen : (b.words.length : Int) = (B.length : Int) + 8 := by
    rw [ws]; simp; omega
  have f0 := fetch_append P b.words R 0 opcode.GET_REL_ADDR.code (by rw [ws]; rfl)
  have f1 := fetch_append P b.words R 1 6 (by rw [ws]; rfl)
  have f2 := fetch_append P b.words R 2 opcode.GET_ENV.code (by rw [ws]; rfl)
  have f3 := fetch_append P b.words R 3 opcode.MK_CLOSURE.code (by rw [ws]; rfl)
  have f4 := fetch_append P b.words R 4 opcode.JMP.code (by rw [ws]; rfl)
  have f5 := fetch_append P b.words R 5 ((B.length : Int) + 4) (by rw [ws]; rfl)
  have s1 := step_GET_REL_ADDR (P ++ b.words ++ R) ⟨P.length, env, st, est, rst⟩ 6
    (by simpa using f0) (by simpa using f1)
  have s2 := step_GET_ENV (P ++ b.words ++ R)
    ⟨(P.length : Int) + 2, env, .ADDRESS ((P.length : Int) + 6) :: st, est, rst⟩
    (by simpa using f2)
  have s3 := step_MK_CLOSURE (P ++ b.words ++ R)
    ⟨(P.length : Int) + 2 + 1, env, .ENVIRONMENT env :: .ADDRESS ((P.length : Int) + 6) :: st,
      est, rst⟩ env ((P.length : Int) + 6) st
    (by simpa [add_assoc] using f3) rfl
  have s4 := step_JMP (P ++ b.words ++ R)
    ⟨(P.length : Int) + 2 + 1 + 1, env, .CLOSURE ((P.length : Int) + 6) env :: st, est, rst⟩
    ((B.length : Int) + 4) (by simpa [add_assoc] using f4) (by simpa [add_assoc] using f5)
  simp only at s1 s2 s3 s4
  have e4 : (P.length : Int) + 2 + 1 + 1 + ((B.length : Int) + 4)
      = (P.length : Int) + b.words.length := by omega
  rw [e4] at s4
  refine ⟨?_, ?_, by omega⟩
  · simp only [steps, s1, s2, s3, s4, bind, Except.bind]
  · intro i hi
    have hcases : i = 0 ∨ i = 1 ∨ i = 2 ∨ i = 3 := by omega
    rcases hcases with rfl | rfl | rfl | rfl
    · exact ⟨_, rfl, by simp only; omega, by simp only; omega⟩
    · refine ⟨_, (by simp only [steps, s1, bind, Except.bind]; rfl), ?_, ?_⟩ <;>
        simp only <;> omega
    · refine ⟨_, (by simp only [steps, s1, s2, bind, Except.bind]; rfl), ?_, ?_⟩ <;>
        simp only <;> omega
    · refine ⟨_, (by simp only [steps, s1, s2, s3, bind, Except.bind]; rfl), ?_, ?_⟩ <;>
        simp only <;> omega

/-- A run of `n` steps inside the loop whose next step leaves defined behaviour makes the
loop end there, for every budget above `n`. -/
theorem loop_fault_of_steps (prog : List Int) (f : fault) : ∀ (n : Nat) (s s' : vm),
    steps prog n s = .ok s' →
    (∀ i, i < n → ∃ si, steps prog i s = .ok si ∧ si.pc < prog.length) →
    s'.pc < prog.length → step prog s' = .error f →
    ∀ fuel, n + 1 ≤ fuel → loop prog fuel s = .error f
  | 0, s, s', h, _, hlt, hf, fuel, hfuel => by
    simp only [steps] at h
    cases h
    obtain ⟨fuel1, rfl⟩ : ∃ m, fuel = m + 1 := ⟨fuel - 1, by omega⟩
    simp only [loop, hlt, if_true, hf, bind, Except.bind]
  | n + 1, s, s', h, hrun, hlt', hf, fuel, hfuel => by
    obtain ⟨s0, h0, hlt⟩ := hrun 0 (by omega)
    simp only [steps] at h0
    cases h0
    cases hstep : step prog s with
    | error f => simp [steps, hstep, bind, Except.bind] at h
    | ok s1 =>
      have h1 : steps prog n s1 = .ok s' := by
        simpa [steps, hstep, bind, Except.bind] using h
      have hrun1 : ∀ i, i < n → ∃ si, steps prog i s1 = .ok si ∧ si.pc < prog.length := by
        intro i hi
        obtain ⟨si, hsi, hpc⟩ := hrun (i + 1) (by omega)
        exact ⟨si, by simpa [steps, hstep, bind, Except.bind] using hsi, hpc⟩
      obtain ⟨fuel1, rfl⟩ : ∃ m, fuel = m + 1 := ⟨fuel - 1, by omega⟩
      simp only [loop, hlt, if_true, hstep, bind, Except.bind]
      exact loop_fault_of_steps prog f n s1 s' h1 hrun1 hlt' hf fuel1 (by omega)

/-- The `SWAP` case on any stack of at least two values: the order of the two top values
is kept. -/
theorem step_SWAP (prog : List Int) (s : vm) (a b : val) (rest : List val)
    (h1 : fetch prog s.pc = .ok opcode.SWAP.code)
    (hst : s.object_stack = a :: b :: rest) :
    step prog s = .ok ⟨s.pc + 1, s.env, a :: b :: rest, s.env_stack, s.return_stack⟩ := by
  simp [step, h1, hst, opcode.code, opcode.of_word, push, pop, bind, Except.bind,
    pure, Except.pure]

/-- The code of a lambda compiled under the empty chain, run from program start. -/
theorem lambda_program_result (x : String) (body : expr) (b : buffer)
    (hc : compile_expression (.LAMBDA x body) [] = .ok b) (fuel : Nat) (hfuel : 4 ≤ fuel) :
    execute_program fuel b vm.start = .result (.CLOSURE 6 .NULL) := by
  obtain ⟨g4, gpcs, glen⟩ := lambda_header_steps x body [] b [] [] ⟨0, .NULL, [], [], []⟩ hc
    rfl
  simp only [List.nil_append, List.append_nil, List.length_nil, Nat.cast_zero, zero_add]
    at g4 gpcs
  have hloop := loop_of_steps b.words 4 _ _ g4
    (fun i hi => by
      obtain ⟨si, e, _, hlt⟩ := gpcs i hi
      exact ⟨si, e, by omega⟩)
    (by simp) fuel hfuel
  simp [execute_program, vm.start, hloop, vm.sp]

/-- The converse of `loop_of_steps`: a loop that ends did some number of steps within its
budget, passed the loop test before each of them and failed it afterwards. -/
theorem steps_of_loop (prog : List Int) : ∀ (fuel : Nat) (s s' : vm),
    loop prog fuel s = .ok (some s') →
    ∃ n, n ≤ fuel ∧ steps prog n s = .ok s'
      ∧ (∀ i, i < n → ∃ si, steps prog i s = .ok si ∧ si.pc < prog.length)
      ∧ ¬ s'.pc < prog.length
  | 0, s, s', h => by
    by_cases hlt : s.pc < prog.length
    · simp [loop, hlt] at h
    · simp only [loop, hlt, if_false] at h
      cases h
      exact ⟨0, le_refl _, rfl, fun i hi => absurd hi (Nat.not_lt_zero i), hlt⟩
  | fuel + 1, s, s', h => by
    by_cases hlt : s.pc < prog.length
    · simp only [loop, hlt, if_true] at h
      cases hstep : step prog s with
      | error f => simp [hstep, bind, Except.bind] at h
      | ok s1 =>
        simp only [hstep, bind, Except.bind] at h
        obtain ⟨n, hn, hs, hrun, hend⟩ := steps_of_loop prog fuel s1 s' h
        refine ⟨n + 1, by omega, ?_, ?_, hend⟩
        · simp only [steps, hstep, bind, Except.bind]; exact hs
        · intro i hi
          cases i with
          | zero => exact ⟨s, rfl, hlt⟩
          | succ i =>
            obtain ⟨si, hsi, hpc⟩ := hrun i (by omega)
            exact ⟨si, by simp only [steps, hstep, bind, Except.bind]; exact hsi, hpc⟩
    · simp only [loop, hlt, if_false] at h
      cases h
      exact ⟨0, by omega, rfl, fun i hi => absurd hi (Nat.not_lt_zero i), hlt⟩

/-- The `EXTEND_ENV` case on any state with a value on top. -/
theorem step_EXTEND_ENV (prog : List Int) (s : vm) (v : val) (rest : List val)
    (h1 : fetch prog s.pc = .ok opcode.EXTEND_ENV.code)
    (hst : s.object_stack = v :: rest) :
    step prog s = .ok ⟨s.pc + 1, .frame v s.env, rest, s.env_stack, s.return_stack⟩ := by
  simp [step, h1, hst, opcode.code, opcode.of_word, pop, bind, Except.bind, pure, Except.pure]

/-- Reading inside the middle part of a program, with the address counted from the start
of that part. -/
theorem fetch_shift (Q P R : List Int) (i : Int) (h0 : 0 ≤ i) (h1 : i < P.length) :
    fetch (Q ++ P ++ R) (i + Q.length) = fetch P i := by
  obtain ⟨n, rfl⟩ : ∃ n : Nat, i = n := ⟨i.toNat, by omega⟩
  have hn : n < P.length := by omega
  have hw : P.get? n = some (P.get ⟨n, hn⟩) := List.get?_eq_get hn
  have e1 := fetch_append Q P R n _ hw
  have e2 := fetch_append [] P [] n _ hw
  simp only [List.nil_append, List.append_nil, List.length_nil, Nat.cast_zero, zero_add] at e2
  rw [add_comm, e1, e2]

/-- Walking down a moved chain gives the moved result of the walk. -/
theorem env_walk_shift (k : Int) : ∀ (n : Nat) (e : renv),
    env_walk n (e.shift k) = (env_walk n e).map (renv.shift k)
  | 0, _ => rfl
  | _ + 1, .NULL => rfl
  | n + 1, .frame _ next => by
    simp only [renv.shift, env_walk]
    exact env_walk_shift k n next

/-- One step on a program placed at offset `Q.length` from the moved state is the moved
step on the program alone. -/
theorem step_shift (Q P R : List Int) (s : vm)
    (h0 : 0 ≤ s.pc) (h1 : s.pc < P.length)
    (h2 : ∀ w op, fetch P s.pc = .ok w → opcode.of_word w = some op → op.operands = 1 →
      s.pc + 1 < P.length) :
    step (Q ++ P ++ R) (s.shift Q.length) = (step P s).map (vm.shift Q.length) := by
  obtain ⟨pc, env, st, est, rst⟩ := s
  simp only at h0 h1 h2
  have hf := fetch_shift Q P R pc h0 h1
  obtain ⟨w, hw⟩ : ∃ w, fetch P pc = .ok w := by
    obtain ⟨n, rfl⟩ : ∃ n : Nat, pc = n := ⟨pc.toNat, by omega⟩
    have hn : n < P.length := by omega
    exact ⟨P.get ⟨n, hn⟩, by
      have := fetch_append [] P [] n _ (List.get?_eq_get hn)
      simpa using this⟩
  have hpc : pc + (Q.length : Int) + 1 = pc + 1 + Q.length := by omega
  have hf2 : ∀ op, opcode.of_word w = some op → op.operands = 1 →
      fetch (Q ++ P ++ R) (pc + 1 + Q.length) = fetch P (pc + 1)
        ∧ ∃ d, fetch P (pc + 1) = .ok d := by
    intro op hop h1op
    have hlt := h2 w op hw hop h1op
    refine ⟨fetch_shift Q P R (pc + 1) (by omega) hlt, ?_⟩
    obtain ⟨n, hn⟩ : ∃ n : Nat, pc + 1 = n := ⟨(pc + 1).toNat, by omega⟩
    have hn' : n < P.length := by omega
    refine ⟨P.get ⟨n, hn'⟩, ?_⟩
    have := fetch_append [] P [] n _ (List.get?_eq_get hn')
    rw [hn]
    simpa using this
  generalize Q ++ P ++ R = big at hf hf2 ⊢
  generalize (Q.length : Int) = k at hf hf2 hpc ⊢
  cases hop : opcode.of_word w with
  | none =>
    simp [step, vm.shift, hf, hw, hop, hpc, bind, Except.bind, pure, Except.pure, Except.map]
  | some op =>
    cases op with
    | DUP =>
      rcases st with _ | ⟨a, rest⟩
      · simp [step, vm.shift, hf, hw, hop, hpc, push, pop, bind, Except.bind, pure,
          Except.pure, Except.map]
      · simp [step, vm.shift, hf, hw, hop, hpc, push, pop, bind, Except.bind, pure,
          Except.pure, Except.map]
    | SWAP =>
      rcases st with _ | ⟨a, _ | ⟨b, rest⟩⟩
      · simp [step, vm.shift, hf, hw, hop, hpc, push, pop, bind, Except.bind, pure,
          Except.pure, Except.map]
      · simp [step, vm.shift, hf, hw, hop, hpc, push, pop, bind, Except.bind, pure,
          Except.pure, Except.map]
      · simp [step, vm.shift, hf, hw, hop, hpc, push, pop, bind, Except.bind, pure,
          Except.pure, Except.map]
    | JMP =>
      obtain ⟨hfb, d, hd⟩ := hf2 .JMP hop rfl
      simp [step, vm.shift, hf, hw, hop, hpc, push, pop, val.get_env, val.get_cls, val.get_addr,
          val.shift, renv.shift, renv.get_value, bind, Except.bind, pure, Except.pure, Except.map, hfb, hd]
      omega
    | CALL =>
      rcases st with _ | ⟨a, rest⟩ <;> try cases a
      all_goals
        simp [step, vm.shift, hf, hw, hop, hpc, push, pop, val.get_env, val.get_cls, val.get_addr,
          val.shift, renv.shift, renv.get_value, bind, Except.bind, pure, Except.pure, Except.map]
      omega
    | RET =>
      rcases rst with _ | ⟨a, rest⟩ <;>
        simp [step, vm.shift, hf, hw, hop, hpc, push, pop, val.get_env, val.get_cls, val.get_addr,
          val.shift, renv.shift, renv.get_value, bind, Except.bind, pure, Except.pure, Except.map]
    | ENV_LOOKUP =>
      obtain ⟨hfb, d, hd⟩ := hf2 .ENV_LOOKUP hop rfl
      have hpc2 : pc + 1 + k + 1 = pc + 1 + 1 + k := by omega
      by_cases hneg : d < 0
      · simp [step, vm.shift, hf, hw, hop, hpc, push, pop, val.get_env, val.get_cls, val.get_addr,
          val.shift, renv.shift, renv.get_value, bind, Except.bind, pure, Except.pure, Except.map, hfb, hd, hneg]
      · simp only [step, vm.shift, hf, hw, hop, hpc, hfb, hd, hneg, bind, Except.bind,
          env_walk_shift, if_false]
        cases hwalk : env_walk d.toNat env with
        | error f => simp [Except.map]
        | ok e =>
          cases e with
          | NULL => simp [Except.map, renv.shift, renv.get_value]
          | frame value next =>
            simp [Except.map, renv.shift, renv.get_value, push, hpc2, pure, Except.pure,
              vm.shift]
    | PUSH_ENV =>
      rcases st with _ | ⟨a, rest⟩ <;> try cases a
      all_goals
        simp [step, vm.shift, hf, hw, hop, hpc, push, pop, val.get_env, val.get_cls, val.get_addr,
          val.shift, renv.shift, renv.get_value, bind, Except.bind, pure, Except.pure, Except.map]
    | POP_ENV =>
      rcases est with _ | ⟨a, rest⟩ <;>
        simp [step, vm.shift, hf, hw, hop, hpc, push, pop, val.get_env, val.get_cls, val.get_addr,
          val.shift, renv.shift, renv.get_value, bind, Except.bind, pure, Except.pure, Except.map]
    | EXTEND_ENV =>
      rcases st with _ | ⟨a, rest⟩ <;>
        simp [step, vm.shift, hf, hw, hop, hpc, push, pop, val.get_env, val.get_cls, val.get_addr,
          val.shift, renv.shift, renv.get_value, bind, Except.bind, pure, Except.pure, Except.map]
    | GET_ENV =>
      simp [step, vm.shift, hf, hw, hop, hpc, push, pop, val.get_env, val.get_cls, val.get_addr,
          val.shift, renv.shift, renv.get_value, bind, Except.bind, pure, Except.pure, Except.map]
    | MK_CLOSURE =>
      rcases st with _ | ⟨a, _ | ⟨b, rest⟩⟩ <;> try cases a
      all_goals try cases b
      all_goals
        simp [step, vm.shift, hf, hw, hop, hpc, push, pop, val.get_env, val.get_cls, val.get_addr,
          val.shift, renv.shift, renv.get_value, bind, Except.bind, pure, Except.pure, Except.map]
    | GET_CLOSURE_ENV =>
      rcases st with _ | ⟨a, rest⟩ <;> try cases a
      all_goals
        simp [step, vm.shift, hf, hw, hop, hpc, push, pop, val.get_env, val.get_cls, val.get_addr,
          val.shift, renv.shift, renv.get_value, bind, Except.bind, pure, Except.pure, Except.map]
    | GET_CLOSURE_CODE =>
      rcases st with _ | ⟨a, rest⟩ <;> try cases a
      all_goals
        simp [step, vm.shift, hf, hw, hop, hpc, push, pop, val.get_env, val.get_cls, val.get_addr,
          val.shift, renv.shift, renv.get_value, bind, Except.bind, pure, Except.pure, Except.map]
    | GET_REL_ADDR =>
      obtain ⟨hfb, d, hd⟩ := hf2 .GET_REL_ADDR hop rfl
      have hpc2 : pc + 1 + k + 1 = pc + 1 + 1 + k := by omega
      simp [step, vm.shift, hf, hw, hop, hpc, push, pop, val.get_env, val.get_cls, val.get_addr,
          val.shift, renv.shift, renv.get_value, bind, Except.bind, pure, Except.pure, Except.map, hfb, hd, hpc2]
      omega

/-- An application that compiles has an operand and an operator that compile under the
same chain, and its words are theirs followed by the epilogue. -/
theorem compile_application_words (f a : expr) (chain : cenv) (b : buffer)
    (hc : compile_expression (.APPLICATION f a) chain = .ok b) :
    ∃ ba bf, compile_expression a chain = .ok ba ∧ compile_expression f chain = .ok bf
      ∧ b.words = ba.words ++ bf.words ++ [opcode.DUP.code, opcode.GET_CLOSURE_ENV.code,
          opcode.PUSH_ENV.code, opcode.SWAP.code, opcode.EXTEND_ENV.code,
          opcode.GET_CLOSURE_CODE.code, opcode.CALL.code] := by
  obtain ⟨ba, bf, ha, hf, happ⟩ := compile_expression_app_inv f a chain b hc
  exact ⟨ba, bf, ha, hf, (compile_application_inv ba bf b (compile_expression_wf _ _ _ ha)
    (compile_expression_wf _ _ _ hf) happ).2⟩

/-! ## Decoding the compiler's output -/

/-- A word that selects a `case` is the value of that enumerator. -/
theorem of_word_code (w : Int) (op : opcode) (h : opcode.of_word w = some op) :
    w = op.code := by
  by_cases h0 : w = 0
  · subst h0
    have e : opcode.of_word 0 = some opcode.DUP := rfl
    rw [e] at h
    cases h
    rfl
  by_cases h1 : w = 1
  · subst h1
    have e : opcode.of_word 1 = some opcode.SWAP := rfl
    rw [e] at h
    cases h
    rfl
  by_cases h2 : w = 2
  · subst h2
    have e : opcode.of_word 2 = some opcode.JMP := rfl
    rw [e] at h
    cases h
    rfl
  by_cases h3 : w = 3
  · subst h3
    have e : opcode.of_word 3 = some opcode.CALL := rfl
    rw [e] at h
    cases h
    rfl
  by_cases h4 : w = 4
  · subst h4
    have e : opcode.of_word 4 = some opcode.RET := rfl
    rw [e] at h
    cases h
    rfl
  by_cases h5 : w = 5
  · subst h5
    have e : opcode.of_word 5 = some opcode.ENV_LOOKUP := rfl
    rw [e] at h
    cases h
    rfl
  by_cases h6 : w = 6
  · subst h6
    have e : opcode.of_word 6 = some opcode.EXTEND_ENV := rfl
    rw [e] at h
    cases h
    rfl
  by_cases h7 : w = 7
  · subst h7
    have e : opcode.of_word 7 = some opcode.PUSH_ENV := rfl
    rw [e] at h
    cases h
    rfl
  by_cases h8 : w = 8
  · subst h8
    have e : opcode.of_word 8 = some opcode.POP_ENV := rfl
    rw [e] at h
    cases h
    rfl
  by_cases h9 : w = 9
  · subst h9
    have e : opcode.of_word 9 = some opcode.GET_ENV := rfl
    rw [e] at h
    cases h
    rfl
  by_cases h10 : w = 10
  · subst h10
    have e : opcode.of_word 10 = some opcode.MK_CLOSURE := rfl
    rw [e] at h
    cases h
    rfl
  by_cases h11 : w = 11
  · subst h11
    have e : opcode.of_word 11 = some opcode.GET_CLOSURE_ENV := rfl
    rw [e] at h
    cases h
    rfl
  by_cases h12 : w = 12
  · subst h12
    have e : opcode.of_word 12 = some opcode.GET_CLOSURE_CODE := rfl
    rw [e] at h
    cases h
    rfl
  by_cases h13 : w = 13
  · subst h13
    have e : opcode.of_word 13 = some opcode.GET_REL_ADDR := rfl
    rw [e] at h
    cases h
    rfl
  simp [opcode.of_word, h0, h1, h2, h3, h4, h5, h6, h7, h8, h9, h10, h11, h12, h13] at h

/-- Decoding a concatenation: when the first part decodes completely, the whole decodes
to the instructions of the first part followed by those of the second. -/
theorem decode_append (B : List Int) (IB : List instr) :
    ∀ (n : Nat) (A : List Int) (p : Nat) (IA : List instr), A.length ≤ n →
      decode p A = some IA → decode (p + A.length) B = some IB →
      decode p (A ++ B) = some (IA ++ IB)
  | _, [], p, IA, _, hA, hB => by
    simp only [decode, Option.some.injEq] at hA
    subst hA
    simpa using hB
  | 0, _ :: _, _, _, hn, _, _ => by simp at hn
  | n + 1, w :: tail, p, IA, hn, hA, hB => by
    have hlen : tail.length ≤ n := by simpa using hn
    simp only [List.cons_append, decode] at hA ⊢
    cases hop : opcode.of_word w with
    | none => simp [hop] at hA
    | some op =>
      simp only [hop] at hA ⊢
      by_cases h0 : op.operands = 0
      · simp only [h0, if_true] at hA ⊢
        obtain ⟨IA1, hA1, rfl⟩ := Option.map_eq_some'.mp hA
        have hB1 : decode (p + 1 + tail.length) B = some IB := by
          have e : p + 1 + tail.length = p + (w :: tail).length := by
            simp only [List.length_cons]; omega
          rw [e]; exact hB
        rw [decode_append B IB n tail (p + 1) IA1 hlen hA1 hB1]
        rfl
      · simp only [h0, if_false] at hA ⊢
        cases tail with
        | nil => simp at hA
        | cons d rest =>
          simp only [List.cons_append] at hA ⊢
          obtain ⟨IA1, hA1, rfl⟩ := Option.map_eq_some'.mp hA
          have hlen2 : rest.length ≤ n := by
            simp only [List.length_cons] at hlen; omega
          have hB1 : decode (p + 2 + rest.length) B = some IB := by
            have e : p + 2 + rest.length = p + (w :: d :: rest).length := by
              simp only [List.length_cons]; omega
            rw [e]; exact hB
          rw [decode_append B IB n rest (p + 2) IA1 hlen2 hA1 hB1]
          rfl

/-- The first instruction decoded from a non-empty sequence is at the start address. -/
theorem decode_head (p : Nat) (ws : List Int) (is : List instr)
    (h : decode p ws = some is) (hne : ws ≠ []) : ∃ j ∈ is, j.addr = p := by
  cases ws with
  | nil => exact absurd rfl hne
  | cons w tail =>
    simp only [decode] at h
    cases hop : opcode.of_word w with
    | none => simp [hop] at h
    | some op =>
      simp only [hop] at h
      by_cases h0 : op.operands = 0
      · simp only [h0, if_true] at h
        obtain ⟨is1, _, rfl⟩ := Option.map_eq_some'.mp h
        exact ⟨_, List.mem_cons_self _ _, rfl⟩
      · simp only [h0, if_false] at h
        cases tail with
        | nil => simp at h
        | cons d rest =>
          simp only at h
          obtain ⟨is1, _, rfl⟩ := Option.map_eq_some'.mp h
          exact ⟨_, List.mem_cons_self _ _, rfl⟩

/-- Every decoded instruction lies inside the decoded words, and the word at its
address is its opcode. -/
theorem decode_addr : ∀ (n : Nat) (ws : List Int) (p : Nat) (is : List instr),
    ws.length ≤ n → decode p ws = some is →
    ∀ i ∈ is, p ≤ i.addr ∧ i.addr < p + ws.length
      ∧ ws.get? (i.addr - p) = some i.op.code
  | _, [], _, is, _, h => by
    simp only [decode, Option.some.injEq] at h
    subst h
    intro i hi
    simp at hi
  | 0, _ :: _, _, _, hn, _ => by simp at hn
  | n + 1, w :: tail, p, is, hn, h => by
    have hlen : tail.length ≤ n := by simpa using hn
    simp only [decode] at h
    cases hop : opcode.of_word w with
    | none => simp [hop] at h
    | some op =>
      have hcode : w = op.code := of_word_code w op hop
      simp only [hop] at h
      by_cases h0 : op.operands = 0
      · simp only [h0, if_true] at h
        obtain ⟨is1, h1, rfl⟩ := Option.map_eq_some'.mp h
        intro i hi
        rcases List.mem_cons.mp hi with rfl | hi
        · simp [hcode]
        · obtain ⟨a1, a2, a3⟩ := decode_addr n tail (p + 1) is1 hlen h1 i hi
          refine ⟨by omega, by simp only [List.length_cons]; omega, ?_⟩
          have e : i.addr - p = (i.addr - (p + 1)) + 1 := by omega
          rw [e]
          simpa using a3
      · simp only [h0, if_false] at h
        cases tail with
        | nil => simp at h
        | cons d rest =>
          simp only at h
          obtain ⟨is1, h1, rfl⟩ := Option.map_eq_some'.mp h
          have hlen2 : rest.length ≤ n := by
            simp only [List.length_cons] at hlen; omega
          intro i hi
          rcases List.mem_cons.mp hi with rfl | hi
          · simp [hcode]
          · obtain ⟨a1, a2, a3⟩ := decode_addr n rest (p + 2) is1 hlen2 h1 i hi
            refine ⟨by omega, by simp only [List.length_cons]; omega, ?_⟩
            have e : i.addr - p = (i.addr - (p + 2)) + 1 + 1 := by omega
            rw [e]
            simpa using a3

/-- Jump targets stay boundaries when a second decoded part is appended whose start is
the limit of the first part. -/
theorem targets_ok_append (E1 E2 : Int) (IA IB : List instr)
    (hA : targets_ok E1 IA) (hB : targets_ok E2 IB)
    (hlink : E1 = E2 ∨ ∃ j ∈ IB, (j.addr : Int) = E1) : targets_ok E2 (IA ++ IB) := by
  intro i hi hjump d hd
  rcases List.mem_append.mp hi with hiA | hiB
  · rcases hA i hiA hjump d hd with h | ⟨j, hj, hjd⟩
    · rcases hlink with e | ⟨j, hj, hjd⟩
      · exact Or.inl (by rw [h, e])
      · exact Or.inr ⟨j, List.mem_append.mpr (Or.inr hj), by rw [hjd, h]⟩
    · exact Or.inr ⟨j, List.mem_append.mpr (Or.inl hj), hjd⟩
  · rcases hB i hiB hjump d hd with h | ⟨j, hj, hjd⟩
    · exact Or.inl h
    · exact Or.inr ⟨j, List.mem_append.mpr (Or.inr hj), hjd⟩

/-- A lambda that compiles has a body that compiles under the extended chain, and its
words are the header, the words of the body and the two closing opcodes. -/
theorem compile_lambda_body (x : String) (body : expr) (chain : cenv) (b : buffer)
    (hc : compile_expression (.LAMBDA x body) chain = .ok b) :
    ∃ bb, compile_expression body (x :: chain) = .ok bb
      ∧ b.words = [opcode.GET_REL_ADDR.code, 6, opcode.GET_ENV.code,
        opcode.MK_CLOSURE.code, opcode.JMP.code, (bb.words.length : Int) + 4] ++ bb.words
        ++ [opcode.POP_ENV.code, opcode.RET.code] := by
  obtain ⟨bb, hb, hl⟩ := compile_expression_lam_inv x body chain b hc
  exact ⟨bb, hb, (compile_lambda_inv bb b (compile_expression_wf _ _ _ hb) hl).2⟩

/-- Appending two pairings of hop counts with occurrences. -/
theorem forall₂_first_hop_append (chain : cenv) (l1 l2 : List Int)
    (o1 o2 : List (String × List String))
    (h1 : List.Forall₂ (first_hop chain) l1 o1) (h2 : List.Forall₂ (first_hop chain) l2 o2) :
    List.Forall₂ (first_hop chain) (l1 ++ l2) (o1 ++ o2) :=
  List.rel_append h1 h2

/-- The output of `compile_expression` decodes completely from any start address, its
jump targets are instruction boundaries, and its `ENV_LOOKUP` operands are, in order,
the first positions of the emitted occurrences in their chains. -/
theorem compile_decodes (e : expr) : ∀ (chain : cenv) (b : buffer),
    compile_expression e chain = .ok b →
    b.words ≠ [] ∧ ∀ p : Nat, ∃ is, decode p b.words = some is
      ∧ targets_ok ((p : Int) + b.words.length) is
      ∧ List.Forall₂ (first_hop chain) (lookups is) (emitted e) := by
  induction e with
  | SYMBOL sym =>
    intro chain b hc
    have hmem : sym ∈ chain := by
      by_contra hno
      have := compile_symbol_lookup_loop_unbound sym chain 0 hno
      simp only [compile_expression, compile_symbol_lookup] at hc
      rw [this] at hc
      cases hc
    obtain ⟨b', k, e', _, ws, hk, hfirst⟩ := compile_symbol_lookup_loop_found sym chain 0 hmem
    simp only [compile_expression, compile_symbol_lookup] at hc
    rw [e'] at hc
    cases hc
    rw [ws]
    refine ⟨by simp, fun p => ⟨[⟨p, .ENV_LOOKUP, some (0 + (k : Int))⟩], rfl, ?_, ?_⟩⟩
    · intro i hi hjump
      simp only [List.mem_singleton] at hi
      subst hi
      rcases hjump with h | h <;> cases h
    · simp only [lookups, List.filterMap_cons, if_true, List.filterMap_nil, emitted]
      refine List.Forall₂.cons ⟨k, by simp, by simpa using hk, ?_⟩ List.Forall₂.nil
      intro j hj
      simpa using hfirst j hj
  | APPLICATION operator operand ihf iha =>
    intro chain b hc
    obtain ⟨ba, bf, ha, hf, ws⟩ := compile_application_words operator operand chain b hc
    obtain ⟨nea, da⟩ := iha chain ba ha
    obtain ⟨nef, df⟩ := ihf chain bf hf
    rw [ws]
    refine ⟨by simp, fun p => ?_⟩
    obtain ⟨IA, hIA, tA, lA⟩ := da p
    obtain ⟨IF, hIF, tF, lF⟩ := df (p + ba.words.length)
    have hIE : decode (p + ba.words.length + bf.words.length)
        [opcode.DUP.code, opcode.GET_CLOSURE_ENV.code, opcode.PUSH_ENV.code,
          opcode.SWAP.code, opcode.EXTEND_ENV.code, opcode.GET_CLOSURE_CODE.code,
          opcode.CALL.code]
        = some [⟨p + ba.words.length + bf.words.length, .DUP, none⟩,
          ⟨p + ba.words.length + bf.words.length + 1, .GET_CLOSURE_ENV, none⟩,
          ⟨p + ba.words.length + bf.words.length + 1 + 1, .PUSH_ENV, none⟩,
          ⟨p + ba.words.length + bf.words.length + 1 + 1 + 1, .SWAP, none⟩,
          ⟨p + ba.words.length + bf.words.length + 1 + 1 + 1 + 1, .EXTEND_ENV, none⟩,
          ⟨p + ba.words.length + bf.words.length + 1 + 1 + 1 + 1 + 1, .GET_CLOSURE_CODE, none⟩,
          ⟨p + ba.words.length + bf.words.length + 1 + 1 + 1 + 1 + 1 + 1, .CALL, none⟩] := rfl
    have hFE := decode_append _ _ bf.words.length bf.words (p + ba.words.length) IF
      (le_refl _) hIF hIE
    have hAll := decode_append _ _ ba.words.length ba.words p IA (le_refl _) hIA hFE
    rw [List.append_assoc]
    refine ⟨_, hAll, ?_, ?_⟩
    · have tE : targets_ok ((p : Int) + ↑(ba.words ++ (bf.words ++ [opcode.DUP.code,
          opcode.GET_CLOSURE_ENV.code, opcode.PUSH_ENV.code, opcode.SWAP.code,
          opcode.EXTEND_ENV.code, opcode.GET_CLOSURE_CODE.code, opcode.CALL.code])).length)
          [⟨p + ba.words.length + bf.words.length, .DUP, none⟩,
          ⟨p + ba.words.length + bf.words.length + 1, .GET_CLOSURE_ENV, none⟩,
          ⟨p + ba.words.length + bf.words.length + 1 + 1, .PUSH_ENV, none⟩,
          ⟨p + ba.words.length + bf.words.length + 1 + 1 + 1, .SWAP, none⟩,
          ⟨p + ba.words.length + bf.words.length + 1 + 1 + 1 + 1, .EXTEND_ENV, none⟩,
          ⟨p + ba.words.length + bf.words.length + 1 + 1 + 1 + 1 + 1, .GET_CLOSURE_CODE, none⟩,
          ⟨p + ba.words.length + bf.words.length + 1 + 1 + 1 + 1 + 1 + 1, .CALL, none⟩] := by
        intro i hi hjump d hd
        simp only [List.mem_cons, List.mem_singleton, List.not_mem_nil, or_false] at hi
        rcases hi with rfl | rfl | rfl | rfl | rfl | rfl | rfl <;> cases hd
      have tFE := targets_ok_append _ _ IF _ tF tE
        (Or.inr ⟨_, List.mem_cons_self _ _, by push_cast; ring⟩)
      refine targets_ok_append _ _ IA _ tA tFE (Or.inr ?_)
      obtain ⟨j, hj, hjp⟩ := decode_head _ _ _ hFE (by simp)
      exact ⟨j, hj, by rw [hjp]; push_cast; ring⟩
    · simp only [lookups, List.filterMap_append, emitted] at lA lF ⊢
      have := forall₂_first_hop_append chain _ _ _ _ lA lF
      simpa [lookups] using this
  | LAMBDA arg body ih =>
    intro chain b hc
    obtain ⟨bb, hb, ws⟩ := compile_lambda_body arg body chain b hc
    obtain ⟨neb, db⟩ := ih (arg :: chain) bb hb
    rw [ws]
    refine ⟨by simp, fun p => ?_⟩
    obtain ⟨IB, hIB, tB, lB⟩ := db (p + 6)
    have hIT : decode (p + 6 + bb.words.length) [opcode.POP_ENV.code, opcode.RET.code]
        = some [⟨p + 6 + bb.words.length, .POP_ENV, none⟩,
          ⟨p + 6 + bb.words.length + 1, .RET, none⟩] := rfl
    have hBT := decode_append _ _ bb.words.length bb.words (p + 6) IB (le_refl _) hIB hIT
    have hIH : decode p [opcode.GET_REL_ADDR.code, 6, opcode.GET_ENV.code,
        opcode.MK_CLOSURE.code, opcode.JMP.code, (bb.words.length : Int) + 4]
        = some [⟨p, .GET_REL_ADDR, some 6⟩, ⟨p + 2, .GET_ENV, none⟩,
          ⟨p + 2 + 1, .MK_CLOSURE, none⟩,
          ⟨p + 2 + 1 + 1, .JMP, some ((bb.words.length : Int) + 4)⟩] := rfl
    have hAll := decode_append _ _ 6 _ p _ (by simp) hIH hBT
    rw [List.append_assoc]
    refine ⟨_, hAll, ?_, ?_⟩
    · have tT : targets_ok ((p : Int) + 6 + bb.words.length + 2)
          [⟨p + 6 + bb.words.length, .POP_ENV, none⟩,
            ⟨p + 6 + bb.words.length + 1, .RET, none⟩] := by
        intro i hi hjump d hd
        simp only [List.mem_cons, List.mem_singleton, List.not_mem_nil, or_false] at hi
        rcases hi with rfl | rfl <;> cases hd
      have tBT := targets_ok_append _ _ IB _ (by simpa using tB) tT
        (Or.inr ⟨_, List.mem_cons_self _ _, by push_cast; ring⟩)
      obtain ⟨j0, hj0, hj0p⟩ := decode_head _ _ _ hBT (by simp)
      intro i hi hjump d hd
      rcases List.mem_append.mp hi with hiH | hiBT
      · simp only [List.mem_cons, List.mem_singleton, List.not_mem_nil, or_false] at hiH
        rcases hiH with rfl | rfl | rfl | rfl
        · cases hd
          exact Or.inr ⟨j0, List.mem_append.mpr (Or.inr hj0), by rw [hj0p]; push_cast; ring⟩
        · cases hd
        · cases hd
        · cases hd
          refine Or.inl ?_
          simp only [List.length_append, List.length_cons, List.length_nil]
          push_cast
          ring
      · rcases tBT i hiBT hjump d hd with h | ⟨j, hj, hjd⟩
        · refine Or.inl ?_
          rw [h]
          simp only [List.length_append, List.length_cons, List.length_nil]
          push_cast
          ring
        · exact Or.inr ⟨j, List.mem_append.mpr (Or.inr hj), hjd⟩
    · have hl : lookups ([⟨p, .GET_REL_ADDR, some 6⟩, ⟨p + 2, .GET_ENV, none⟩,
          ⟨p + 2 + 1, .MK_CLOSURE, none⟩,
          ⟨p + 2 + 1 + 1, .JMP, some ((bb.words.length : Int) + 4)⟩]
          ++ (IB ++ [⟨p + 6 + bb.words.length, .POP_ENV, none⟩,
            ⟨p + 6 + bb.words.length + 1, .RET, none⟩])) = lookups IB := by
        simp [lookups]
      rw [hl]
      simp only [emitted]
      rw [List.forall₂_map_right_iff]
      refine List.Forall₂.imp ?_ lB
      intro n o ⟨k, hn, hk, hfirst⟩
      exact ⟨k, hn, by simpa using hk, fun j hj => by simpa using hfirst j hj⟩

/-! ## Runs, and the run of the self-application -/

/-- C1 as stated fails on a large operator: the operand `\x x` and the operator of 42
nested lambdas both compile under the empty chain, and the application does not: the
operator code has `buf_size` 1682780553, so the size `38 + floor(1.5 * 1682780553)` that
`merge_bufs` computes is above `INT_MAX`. -/
theorem compile_application_int_overflow :
    (∃ ba bf, compile_expression (nested_lambdas 1) [] = .ok ba
      ∧ compile_expression (nested_lambdas 42) [] = .ok bf
      ∧ ba.buf_size = 38 ∧ bf.buf_size = 1682780553
      ∧ INT_MAX < ba.buf_size + bf.buf_size * 3 / 2)
    ∧ compile_expression (.APPLICATION (nested_lambdas 42) (nested_lambdas 1)) []
        = .error .int_overflow := by
  obtain ⟨ba, ea, wa, za, _⟩ := nested_lambdas_compile 0 [] (by decide)
  obtain ⟨bf, ef, wf, zf, _⟩ := nested_lambdas_compile 41 []
    (by rw [nested_size_values.1]; decide)
  have za1 : ba.buf_size = 38 := za
  have zf1 : bf.buf_size = 1682780553 := by rw [zf, nested_size_values.1]
  have hbig : INT_MAX < ba.buf_size + bf.buf_size * 3 / 2 := by
    rw [za1, zf1]; decide
  refine ⟨⟨ba, bf, ea, ef, za1, zf1, hbig⟩, ?_⟩
  rw [compile_expression_app_eq (nested_lambdas 42) (nested_lambdas 1) [] ba bf ea ef]
  simp only [compile_application, merge_and_free_bufs, merge_bufs_overflow ba bf hbig, bind,
    Except.bind]

/-- C1, amended: when operand `a` and operator `f` both compile under a chain and
compiling the application does not stop at an `int` overflow of a buffer size, the
application `(f a)` compiles under that chain, and its words are the words of `a`, then
the words of `f`, then `DUP, GET_CLOSURE_ENV, PUSH_ENV, SWAP, EXTEND_ENV,
GET_CLOSURE_CODE, CALL`. -/
theorem compile_application_layout (f a : expr) (chain : cenv) (ba bf : buffer)
    (ha : compile_expression a chain = .ok ba) (hf : compile_expression f chain = .ok bf)
    (hno : compile_expression (.APPLICATION f a) chain ≠ .error .int_overflow) :
    ∃ b, compile_expression (.APPLICATION f a) chain = .ok b
      ∧ b.words = ba.words ++ bf.words ++ [opcode.DUP.code, opcode.GET_CLOSURE_ENV.code,
          opcode.PUSH_ENV.code, opcode.SWAP.code, opcode.EXTEND_ENV.code,
          opcode.GET_CLOSURE_CODE.code, opcode.CALL.code] := by
  have hcomp := compile_expression_app_eq f a chain ba bf ha hf
  rcases compile_application_cases ba bf
    (compile_expression_wf a chain ba ha) (compile_expression_wf f chain bf hf)
    with ⟨b, e, _, ws⟩ | e
  · exact ⟨b, by rw [hcomp]; exact e, ws⟩
  · exact absurd (by rw [hcomp]; exact e) hno

/-- C1, amended, at `(f a)` under the chain `f, a`. -/
theorem compile_application_layout_witness :
    (compile_expression (.SYMBOL "a") ["f", "a"] = .ok ⟨2, 2, [5, 1]⟩
      ∧ compile_expression (.SYMBOL "f") ["f", "a"] = .ok ⟨2, 2, [5, 0]⟩
      ∧ compile_expression (.APPLICATION (.SYMBOL "f") (.SYMBOL "a")) ["f", "a"]
          ≠ .error .int_overflow)
    ∧ ∃ b, compile_expression (.APPLICATION (.SYMBOL "f") (.SYMBOL "a")) ["f", "a"] = .ok b
      ∧ b.words = (⟨2, 2, [5, 1]⟩ : buffer).words ++ (⟨2, 2, [5, 0]⟩ : buffer).words
          ++ [opcode.DUP.code, opcode.GET_CLOSURE_ENV.code,
          opcode.PUSH_ENV.code, opcode.SWAP.code, opcode.EXTEND_ENV.code,
          opcode.GET_CLOSURE_CODE.code, opcode.CALL.code] :=
  ⟨⟨rfl, rfl, ne_int_overflow_of_ok _ rfl⟩,
    compile_application_layout (.SYMBOL "f") (.SYMBOL "a") ["f", "a"] ⟨2, 2, [5, 1]⟩
      ⟨2, 2, [5, 0]⟩ rfl rfl (ne_int_overflow_of_ok _ rfl)⟩

/-- C2 as stated fails at the 43rd nested lambda: the body of 42 nested lambdas compiles
under the chain extended with `x`, to a buffer of `buf_size` 1682780553, and the lambda
around it does not compile: the size `32 + floor(1.5 * 1682780553) = 2524170861` that
`merge_bufs` computes is above `INT_MAX`. -/
theorem compile_lambda_int_overflow :
    (∃ bb, compile_expression (nested_lambdas 42) ["x"] = .ok bb
      ∧ bb.buf_size = 1682780553 ∧ 32 + bb.buf_size * 3 / 2 = 2524170861
      ∧ INT_MAX < 32 + bb.buf_size * 3 / 2)
    ∧ compile_expression (.LAMBDA "x" (nested_lambdas 42)) [] = .error .int_overflow := by
  obtain ⟨bb, eb, _, zb, _⟩ := nested_lambdas_compile 41 ["x"]
    (by rw [nested_size_values.1]; decide)
  have zb1 : bb.buf_size = 1682780553 := by rw [zb, nested_size_values.1]
  refine ⟨⟨bb, eb, zb1, by rw [zb1], by rw [zb1]; decide⟩, ?_⟩
  exact nested_lambdas_overflow 41 [] (by rw [nested_size_values.1]; decide)
    (by rw [nested_size_values.2]; decide)

/-- C2, amended: when the body compiles to `B` under the chain extended with `x` and
compiling the lambda does not stop at an `int` overflow of a buffer size, the lambda
compiles to `GET_REL_ADDR, 6, GET_ENV, MK_CLOSURE, JMP, n+4`, then `B`, then
`POP_ENV, RET`, with `n` the length of `B`.  With `d` the operand of `GET_REL_ADDR`
(opcode at address 0) and `j` the operand of `JMP` (opcode at address 4): the words
from address `0 + d` on are `B` and the two closing opcodes, and `4 + j` is the length
of the whole code. -/
theorem compile_lambda_layout (x : String) (body : expr) (chain : cenv) (bb : buffer)
    (hb : compile_expression body (x :: chain) = .ok bb)
    (hno : compile_expression (.LAMBDA x body) chain ≠ .error .int_overflow) :
    ∃ b, compile_expression (.LAMBDA x body) chain = .ok b
      ∧ b.words = [opcode.GET_REL_ADDR.code, 6, opcode.GET_ENV.code, opcode.MK_CLOSURE.code,
          opcode.JMP.code, (bb.words.length : Int) + 4] ++ bb.words
          ++ [opcode.POP_ENV.code, opcode.RET.code]
      ∧ ∃ d j : Int, b.words.get? 1 = some d ∧ b.words.get? 5 = some j
        ∧ b.words.drop (0 + d).toNat = bb.words ++ [opcode.POP_ENV.code, opcode.RET.code]
        ∧ 4 + j = (b.words.length : Int) := by
  have hcomp := compile_expression_lam_eq x body chain bb hb
  rcases compile_lambda_cases bb (compile_expression_wf body (x :: chain) bb hb)
    with ⟨b, e, _, ws⟩ | e
  · refine ⟨b, by rw [hcomp]; exact e, ws, 6, (bb.words.length : Int) + 4, ?_, ?_, ?_, ?_⟩
    · rw [ws]; rfl
    · rw [ws]; rfl
    · rw [ws]; rfl
    · rw [ws]; simp; omega
  · exact absurd (by rw [hcomp]; exact e) hno

/-- C2, amended, at the identity `\x x` under the empty chain. -/
theorem compile_lambda_layout_witness :
    (compile_expression (.SYMBOL "x") ["x"] = .ok ⟨2, 2, [5, 0]⟩
      ∧ compile_expression (.LAMBDA "x" (.SYMBOL "x")) [] ≠ .error .int_overflow)
    ∧ ∃ b, compile_expression (.LAMBDA "x" (.SYMBOL "x")) [] = .ok b
      ∧ b.words = [opcode.GET_REL_ADDR.code, 6, opcode.GET_ENV.code, opcode.MK_CLOSURE.code,
          opcode.JMP.code, (((⟨2, 2, [5, 0]⟩ : buffer).words.length : Nat) : Int) + 4]
          ++ (⟨2, 2, [5, 0]⟩ : buffer).words
          ++ [opcode.POP_ENV.code, opcode.RET.code]
      ∧ ∃ d j : Int, b.words.get? 1 = some d ∧ b.words.get? 5 = some j
        ∧ b.words.drop (0 + d).toNat
            = (⟨2, 2, [5, 0]⟩ : buffer).words ++ [opcode.POP_ENV.code, opcode.RET.code]
        ∧ 4 + j = (b.words.length : Int) :=
  ⟨⟨rfl, ne_int_overflow_of_ok _ rfl⟩,
    compile_lambda_layout "x" (.SYMBOL "x") [] ⟨2, 2, [5, 0]⟩ rfl
      (ne_int_overflow_of_ok _ rfl)⟩

/-- C3: a symbol that the chain contains compiles to the two words `ENV_LOOKUP, k`,
where `k` is a position of the chain holding that name and no earlier (more inner)
position holds it. -/
theorem compile_symbol_innermost (s : String) (chain : cenv) (h : s ∈ chain) :
    ∃ b k, compile_expression (.SYMBOL s) chain = .ok b
      ∧ b.words = [opcode.ENV_LOOKUP.code, ((k : Nat) : Int)]
      ∧ chain.get? k = some s ∧ ∀ j, j < k → chain.get? j ≠ some s := by
  obtain ⟨b, k, e, _, ws, hk, hfirst⟩ := compile_symbol_lookup_loop_found s chain 0 h
  refine ⟨b, k, e, ?_, hk, hfirst⟩
  rw [ws]; simp

/-- C3 at the symbol `x` under the chain `y, x, x`, where `x` is bound twice. -/
theorem compile_symbol_innermost_witness :
    "x" ∈ ["y", "x", "x"]
    ∧ ∃ b k, compile_expression (.SYMBOL "x") ["y", "x", "x"] = .ok b
      ∧ b.words = [opcode.ENV_LOOKUP.code, ((k : Nat) : Int)]
      ∧ ["y", "x", "x"].get? k = some "x" ∧ ∀ j, j < k → ["y", "x", "x"].get? j ≠ some "x" :=
  ⟨by decide, compile_symbol_innermost "x" ["y", "x", "x"] (by decide)⟩

/-- C4 as stated fails on a large operand: in `(y L)` with `L` of 43 nested lambdas, the
occurrence of `y` is bound by no lambda and named by no chain entry, yet compilation
under the empty chain does not take the unbound-symbol exit: the operand `L` is
compiled first and stops at the `int` overflow of its buffer size. -/
theorem compile_unbound_behind_overflow :
    (∃ o ∈ occurrences (.APPLICATION (.SYMBOL "y") (nested_lambdas 43)), o.1 = "y"
      ∧ unbound_under [] o)
    ∧ compile_expression (.APPLICATION (.SYMBOL "y") (nested_lambdas 43)) []
        = .error .int_overflow
    ∧ ¬ ∃ s, compile_expression (.APPLICATION (.SYMBOL "y") (nested_lambdas 43)) []
        = .error (.unbound_symbol s) := by
  have e := nested_lambdas_overflow 41 [] (by rw [nested_size_values.1]; decide)
    (by rw [nested_size_values.2]; decide)
  have h : compile_expression (.APPLICATION (.SYMBOL "y") (nested_lambdas 43)) []
      = .error .int_overflow :=
    compile_expression_app_operand_error (.SYMBOL "y") (nested_lambdas 43) [] _ e
  refine ⟨⟨("y", []), ?_, rfl, ?_⟩, h, ?_⟩
  · simp [occurrences]
  · simp [unbound_under]
  · rintro ⟨s, hs⟩
    rw [h] at hs
    cases hs

/-- C4, amended: compilation takes the unbound-symbol exit only if some symbol
occurrence is neither bound by an enclosing lambda of the expression nor named in the
chain, and the symbol it names is such an occurrence; every failure is that exit or an
`int` overflow of a buffer size; unless compilation stops at such an overflow, it fails
exactly when some occurrence is unbound; when compilation under the empty chain fails,
`main` gets no buffer and does not reach `execute_program`; and the bare symbol `x`
fails under the empty chain. -/
theorem compile_fails_iff_unbound (e : expr) (chain : cenv) :
    (∀ s, compile_expression e chain = .error (.unbound_symbol s) →
        ∃ o ∈ occurrences e, o.1 = s ∧ unbound_under chain o)
    ∧ (∀ f, compile_expression e chain = .error f →
        (∃ s, f = .unbound_symbol s) ∨ f = .int_overflow)
    ∧ (compile_expression e chain ≠ .error .int_overflow →
        ((∃ s, compile_expression e chain = .error (.unbound_symbol s))
          ↔ ∃ o ∈ occurrences e, unbound_under chain o))
    ∧ (∀ f fuel, compile_expression e [] = .error f → main_pass fuel e = .error f)
    ∧ compile_expression (.SYMBOL "x") [] = .error (.unbound_symbol "x") := by
  refine ⟨?_, ?_, ?_, ?_, rfl⟩
  · intro s hs
    rcases compile_expression_cases e chain with ⟨b, hb, _⟩ | ⟨t, ht, o, ho, h1, hu⟩ | h
    · rw [hb] at hs; cases hs
    · rw [ht] at hs; cases hs
      exact ⟨o, ho, h1, hu⟩
    · rw [h] at hs; cases hs
  · intro f hf
    rcases compile_expression_cases e chain with ⟨b, hb, _⟩ | ⟨t, ht, _⟩ | h
    · rw [hb] at hf; cases hf
    · rw [ht] at hf; cases hf
      exact Or.inl ⟨t, rfl⟩
    · rw [h] at hf; cases hf
      exact Or.inr rfl
  · intro hno
    constructor
    · rintro ⟨s, hs⟩
      rcases compile_expression_cases e chain with ⟨b, hb, _⟩ | ⟨t, _, o, ho, _, hu⟩ | h
      · rw [hb] at hs; cases hs
      · exact ⟨o, ho, hu⟩
      · exact absurd h hno
    · rintro ⟨o, ho, hu⟩
      rcases compile_expression_cases e chain with ⟨b, _, _, hn⟩ | ⟨t, ht, _⟩ | h
      · exact absurd hu (hn o ho)
      · exact ⟨t, ht⟩
      · exact absurd h hno
  · intro f fuel hf
    simp only [main_pass, hf, bind, Except.bind]

/-! ## The virtual machine (C5 to C10) -/

/-- C5: the `SWAP` case does not exchange the two top values.  On the operand stack
`ADDRESS 1, ADDRESS 2` (top first) one `SWAP` step ends with `ADDRESS 1` still on top
and `ADDRESS 2` below it; `pc` advances by one and nothing else changes. -/
theorem swap_keeps_order :
    step [opcode.SWAP.code] ⟨0, .NULL, [.ADDRESS 1, .ADDRESS 2], [], []⟩
      = .ok ⟨1, .NULL, [.ADDRESS 1, .ADDRESS 2], [], []⟩ := rfl

/-- C6: the `CALL` case pushes the address two past the `CALL` opcode.  With `CALL` at
address 0 and `ADDRESS 3` on the operand stack, the step pops it, sets `pc` to 3 and
pushes 2 (not 1) on the return stack; the `RET` at address 3 then resumes at address 2,
so the word at address 1, directly after the `CALL`, is skipped. -/
theorem call_return_address :
    step [opcode.CALL.code, opcode.GET_ENV.code, opcode.GET_ENV.code, opcode.RET.code]
        ⟨0, .NULL, [.ADDRESS 3], [], []⟩ = .ok ⟨3, .NULL, [], [], [2]⟩
    ∧ steps [opcode.CALL.code, opcode.GET_ENV.code, opcode.GET_ENV.code, opcode.RET.code] 2
        ⟨0, .NULL, [.ADDRESS 3], [], []⟩ = .ok ⟨2, .NULL, [], [], []⟩ := ⟨rfl, rfl⟩

/-- C7: the seven-opcode application epilogue, run from `pc = 0` with environment
register `e`, and operand stack `CLOSURE 100 cenv` on top of `v` on top of `ADDRESS 3`.
When `v` is the closure `CLOSURE 200 NULL`, the run ends at `pc = 200` (the body
address of `v`, not 100) with the environment register a frame binding
`CLOSURE 100 cenv` (not `v`) over `cenv`; `e` is on the environment-save stack, one
return address is on the return stack and the operand stack is the rest.  When `v` is
the address `ADDRESS 5`, the run reads a closure field from it and leaves defined
behaviour. -/
theorem epilogue_binds_operator :
    steps [opcode.DUP.code, opcode.GET_CLOSURE_ENV.code, opcode.PUSH_ENV.code,
        opcode.SWAP.code, opcode.EXTEND_ENV.code, opcode.GET_CLOSURE_CODE.code,
        opcode.CALL.code] 7
      ⟨0, .frame (.ADDRESS 1) .NULL,
        [.CLOSURE 100 (.frame (.ADDRESS 2) .NULL), .CLOSURE 200 .NULL, .ADDRESS 3], [], []⟩
      = .ok ⟨200, .frame (.CLOSURE 100 (.frame (.ADDRESS 2) .NULL)) (.frame (.ADDRESS 2) .NULL),
          [.ADDRESS 3], [.frame (.ADDRESS 1) .NULL], [8]⟩
    ∧ steps [opcode.DUP.code, opcode.GET_CLOSURE_ENV.code, opcode.PUSH_ENV.code,
        opcode.SWAP.code, opcode.EXTEND_ENV.code, opcode.GET_CLOSURE_CODE.code,
        opcode.CALL.code] 7
      ⟨0, .frame (.ADDRESS 1) .NULL,
        [.CLOSURE 100 (.frame (.ADDRESS 2) .NULL), .ADDRESS 5, .ADDRESS 3], [], []⟩
      = .error .wrong_tag := ⟨rfl, rfl⟩

/-- C9: the code compiled from `(\x x \y y)` under the empty chain, run from program
start with any budget of at least 18 steps, halts and returns `CLOSURE 16 NULL`, the
closure created for the operator `\x x`; the code of `\y y` alone returns
`CLOSURE 6 NULL`.  The two values differ in their body address; `print_value` prints
the same text for both.  With the operand `\y \z z` the application returns the closure
of the inner `\z z` (body address 12, over a frame binding the operator's closure),
not `CLOSURE 6 NULL`. -/
theorem identity_application_returns_operator (extra : Nat) :
    main_pass (18 + extra)
        (.APPLICATION (.LAMBDA "x" (.SYMBOL "x")) (.LAMBDA "y" (.SYMBOL "y")))
      = .ok (.result (.CLOSURE 16 .NULL))
    ∧ main_pass (4 + extra) (.LAMBDA "y" (.SYMBOL "y")) = .ok (.result (.CLOSURE 6 .NULL))
    ∧ print_value (.CLOSURE 16 .NULL) = print_value (.CLOSURE 6 .NULL)
    ∧ main_pass 21
        (.APPLICATION (.LAMBDA "x" (.SYMBOL "x")) (.LAMBDA "y" (.LAMBDA "z" (.SYMBOL "z"))))
      = .ok (.result (.CLOSURE 12 (.frame (.CLOSURE 24 .NULL) .NULL))) := by
  refine ⟨?_, ?_, rfl, by set_option maxRecDepth 20000 in rfl⟩
  · obtain ⟨b, hc, hw⟩ : ∃ b, compile_expression
          (.APPLICATION (.LAMBDA "x" (.SYMBOL "x")) (.LAMBDA "y" (.SYMBOL "y"))) [] = .ok b
        ∧ b.words = [13, 6, 9, 10, 2, 6, 5, 0, 8, 4, 13, 6, 9, 10, 2, 6, 5, 0, 8, 4,
            0, 11, 7, 1, 6, 12, 3] := ⟨_, rfl, rfl⟩
    have hl := loop_of_steps b.words 18 ⟨0, .NULL, [], [], []⟩
      ⟨28, .NULL, [.CLOSURE 16 .NULL], [], []⟩ (by rw [hw]; rfl)
      (by
        intro i hi
        rw [hw]
        interval_cases i <;> exact ⟨_, rfl, by decide⟩)
      (by rw [hw]; decide) (18 + extra) (by omega)
    simp [main_pass, hc, execute_program, vm.start, hl, vm.sp, bind, Except.bind, pure,
      Except.pure]
  · have hc : ∃ b, compile_expression (.LAMBDA "y" (.SYMBOL "y")) [] = .ok b := ⟨_, rfl⟩
    obtain ⟨b, hc⟩ := hc
    have hr := lambda_program_result "y" (.SYMBOL "y") b hc (4 + extra) (by omega)
    simp [main_pass, hc, hr, bind, Except.bind, pure, Except.pure]

/-- C10: the code compiled from `((\x \y x \p p) \q q)` under the empty chain, run from
program start with any budget of at least 25 steps, does not return a value: after 24
steps the second `SWAP` finds one value on the operand stack and reads past the top of
the 1024-entry array. -/
theorem lexical_capture_faults (extra : Nat) :
    main_pass (25 + extra)
        (.APPLICATION (.APPLICATION (.LAMBDA "x" (.LAMBDA "y" (.SYMBOL "x")))
          (.LAMBDA "p" (.SYMBOL "p"))) (.LAMBDA "q" (.SYMBOL "q")))
      = .ok (.undefined .stack_underrun) := by
  obtain ⟨b, hc, hw⟩ : ∃ b, compile_expression
        (.APPLICATION (.APPLICATION (.LAMBDA "x" (.LAMBDA "y" (.SYMBOL "x")))
          (.LAMBDA "p" (.SYMBOL "p"))) (.LAMBDA "q" (.SYMBOL "q"))) [] = .ok b
      ∧ b.words = [13, 6, 9, 10, 2, 6, 5, 0, 8, 4, 13, 6, 9, 10, 2, 6, 5, 0, 8, 4,
          13, 6, 9, 10, 2, 14, 13, 6, 9, 10, 2, 6, 5, 1, 8, 4, 8, 4,
          0, 11, 7, 1, 6, 12, 3, 0, 11, 7, 1, 6, 12, 3] := by
    set_option maxRecDepth 20000 in
    exact ⟨_, rfl, rfl⟩
  have hl := loop_fault_of_steps b.words .stack_underrun 24 ⟨0, .NULL, [], [], []⟩
    ⟨48, .NULL, [.CLOSURE 6 .NULL], [.NULL], []⟩ (by rw [hw]; rfl)
    (by
      intro i hi
      rw [hw]
      interval_cases i <;> exact ⟨_, rfl, by decide⟩)
    (by rw [hw]; decide) (by rw [hw]; rfl) (25 + extra) (by omega)
  simp [main_pass, hc, execute_program, vm.start, hl, bind, Except.bind, pure, Except.pure]

/-! ## Execution, environments and buffers (C13, C14, C20) -/

/-- C13: `execute_program` starts the loop at `pc = 0` with the `NULL` environment.  When
the loop ends in a state `s`, it did some steps from that start, the loop test
`pc < prog_len` held before each step and fails in `s`; `execute_program` then returns
`v` exactly when the operand stack of `s` is the single value `v`, and takes the
`exit(1)` of the final check exactly when the stack does not hold exactly one value. -/
theorem execute_program_final_check (fuel : Nat) (buf : buffer) (g s : vm)
    (h : loop buf.words fuel ⟨0, .NULL, g.object_stack, g.env_stack, g.return_stack⟩
      = .ok (some s)) :
    (∃ n, n ≤ fuel
      ∧ steps buf.words n ⟨0, .NULL, g.object_stack, g.env_stack, g.return_stack⟩ = .ok s
      ∧ (∀ i, i < n → ∃ si,
          steps buf.words i ⟨0, .NULL, g.object_stack, g.env_stack, g.return_stack⟩ = .ok si
          ∧ si.pc < buf.words.length)
      ∧ ¬ s.pc < buf.words.length)
    ∧ (∀ v, execute_program fuel buf g = .result v ↔ s.object_stack = [v])
    ∧ (execute_program fuel buf g = .malformed_result ↔ s.object_stack.length ≠ 1) := by
  refine ⟨steps_of_loop buf.words fuel _ s h, ?_, ?_⟩
  · intro v
    obtain ⟨pc, env, st, est, rst⟩ := s
    rcases st with _ | ⟨a, _ | ⟨b, rest⟩⟩
    · simp [execute_program, h, vm.sp]
    · simp [execute_program, h, vm.sp]
    · have hne : (1024 : Int) - ((rest.length : Int) + 1 + 1) ≠ 1023 := by omega
      simp [execute_program, h, vm.sp, hne]
  · obtain ⟨pc, env, st, est, rst⟩ := s
    rcases st with _ | ⟨a, _ | ⟨b, rest⟩⟩
    · simp [execute_program, h, vm.sp]
    · simp [execute_program, h, vm.sp]
    · have hne : (1024 : Int) - ((rest.length : Int) + 1 + 1) ≠ 1023 := by omega
      simp [execute_program, h, vm.sp, hne]

/-- C13 at the code of `\y y`, run from program start with a budget of four steps. -/
theorem execute_program_final_check_witness :
    loop (⟨38, 10, [13, 6, 9, 10, 2, 6, 5, 0, 8, 4] ++ List.replicate 28 0⟩ : buffer).words 4
        ⟨0, .NULL, vm.start.object_stack, vm.start.env_stack, vm.start.return_stack⟩
      = .ok (some ⟨10, .NULL, [.CLOSURE 6 .NULL], [], []⟩)
    ∧ ((∃ n, n ≤ 4
        ∧ steps (⟨38, 10, [13, 6, 9, 10, 2, 6, 5, 0, 8, 4] ++ List.replicate 28 0⟩ : buffer).words
            n ⟨0, .NULL, vm.start.object_stack, vm.start.env_stack, vm.start.return_stack⟩
          = .ok ⟨10, .NULL, [.CLOSURE 6 .NULL], [], []⟩
        ∧ (∀ i, i < n → ∃ si,
            steps (⟨38, 10, [13, 6, 9, 10, 2, 6, 5, 0, 8, 4] ++ List.replicate 28 0⟩
                : buffer).words i
              ⟨0, .NULL, vm.start.object_stack, vm.start.env_stack, vm.start.return_stack⟩
              = .ok si
            ∧ si.pc < (⟨38, 10, [13, 6, 9, 10, 2, 6, 5, 0, 8, 4] ++ List.replicate 28 0⟩
                : buffer).words.length)
        ∧ ¬ (⟨10, .NULL, [.CLOSURE 6 .NULL], [], []⟩ : vm).pc
            < (⟨38, 10, [13, 6, 9, 10, 2, 6, 5, 0, 8, 4] ++ List.replicate 28 0⟩
                : buffer).words.length)
      ∧ (∀ v, execute_program 4
            ⟨38, 10, [13, 6, 9, 10, 2, 6, 5, 0, 8, 4] ++ List.replicate 28 0⟩ vm.start
            = .result v
          ↔ (⟨10, .NULL, [.CLOSURE 6 .NULL], [], []⟩ : vm).object_stack = [v])
      ∧ (execute_program 4
            ⟨38, 10, [13, 6, 9, 10, 2, 6, 5, 0, 8, 4] ++ List.replicate 28 0⟩ vm.start
            = .malformed_result
          ↔ (⟨10, .NULL, [.CLOSURE 6 .NULL], [], []⟩ : vm).object_stack.length ≠ 1)) :=
  ⟨rfl, execute_program_final_check 4
    ⟨38, 10, [13, 6, 9, 10, 2, 6, 5, 0, 8, 4] ++ List.replicate 28 0⟩ vm.start
    ⟨10, .NULL, [.CLOSURE 6 .NULL], [], []⟩ rfl⟩

/-- C14: the `EXTEND_ENV` step itself does what is claimed: in a state with `v` on top
of the operand stack and environment register `e` it makes the register a new frame
holding `v` whose next frame is `e`, pops `v`, and leaves the rest of the operand stack,
the environment-save stack and the return stack as they were.  Two invocations of one
closure do not run in captured-environment-plus-own-argument: the application epilogue,
run on the closure `CLOSURE 100 cenv` with the argument `CLOSURE 200 NULL` and again
with the argument `CLOSURE 300 NULL`, reaches `EXTEND_ENV` with the closure itself on
top both times, so both invocations get the same environment, a frame binding
`CLOSURE 100 cenv` over `cenv`, in which the lookup of the parameter gives the closure
and not the argument of either invocation. -/
theorem invocations_bind_operator :
    (∀ (prog : List Int) (s : vm) (v : val) (rest : List val),
        fetch prog s.pc = .ok opcode.EXTEND_ENV.code → s.object_stack = v :: rest →
        step prog s = .ok ⟨s.pc + 1, .frame v s.env, rest, s.env_stack, s.return_stack⟩)
    ∧ steps [opcode.DUP.code, opcode.GET_CLOSURE_ENV.code, opcode.PUSH_ENV.code,
        opcode.SWAP.code, opcode.EXTEND_ENV.code, opcode.GET_CLOSURE_CODE.code,
        opcode.CALL.code] 5
      ⟨0, .NULL, [.CLOSURE 100 (.frame (.ADDRESS 2) .NULL), .CLOSURE 200 .NULL], [], []⟩
      = .ok ⟨5, .frame (.CLOSURE 100 (.frame (.ADDRESS 2) .NULL)) (.frame (.ADDRESS 2) .NULL),
          [.CLOSURE 200 .NULL], [.NULL], []⟩
    ∧ steps [opcode.DUP.code, opcode.GET_CLOSURE_ENV.code, opcode.PUSH_ENV.code,
        opcode.SWAP.code, opcode.EXTEND_ENV.code, opcode.GET_CLOSURE_CODE.code,
        opcode.CALL.code] 5
      ⟨0, .NULL, [.CLOSURE 100 (.frame (.ADDRESS 2) .NULL), .CLOSURE 300 .NULL], [], []⟩
      = .ok ⟨5, .frame (.CLOSURE 100 (.frame (.ADDRESS 2) .NULL)) (.frame (.ADDRESS 2) .NULL),
          [.CLOSURE 300 .NULL], [.NULL], []⟩
    ∧ steps [opcode.DUP.code, opcode.GET_CLOSURE_ENV.code, opcode.PUSH_ENV.code,
        opcode.SWAP.code, opcode.EXTEND_ENV.code, opcode.GET_CLOSURE_CODE.code,
        opcode.CALL.code] 7
      ⟨0, .NULL, [.CLOSURE 100 (.frame (.ADDRESS 2) .NULL), .CLOSURE 200 .NULL], [], []⟩
      = .ok ⟨200, .frame (.CLOSURE 100 (.frame (.ADDRESS 2) .NULL)) (.frame (.ADDRESS 2) .NULL),
          [], [.NULL], [8]⟩
    ∧ steps [opcode.DUP.code, opcode.GET_CLOSURE_ENV.code, opcode.PUSH_ENV.code,
        opcode.SWAP.code, opcode.EXTEND_ENV.code, opcode.GET_CLOSURE_CODE.code,
        opcode.CALL.code] 7
      ⟨0, .NULL, [.CLOSURE 100 (.frame (.ADDRESS 2) .NULL), .CLOSURE 300 .NULL], [], []⟩
      = .ok ⟨300, .frame (.CLOSURE 100 (.frame (.ADDRESS 2) .NULL)) (.frame (.ADDRESS 2) .NULL),
          [], [.NULL], [8]⟩
    ∧ (renv.frame (.CLOSURE 100 (.frame (.ADDRESS 2) .NULL)) (.frame (.ADDRESS 2) .NULL)).get_value
      = .ok (.CLOSURE 100 (.frame (.ADDRESS 2) .NULL)) :=
  ⟨step_EXTEND_ENV, rfl, rfl, rfl, rfl, rfl⟩

/-- C20 as stated fails on a large buffer: the code of 42 nested lambdas is a buffer
produced during compilation that satisfies the invariant, with `buf_size` 1682780553;
for it and a fresh `alloc_buffer(32)`, `merge_bufs` does not return a buffer of size
`32 + floor(1.5 * 1682780553) = 2524170861`: that value is above `INT_MAX` and its
conversion to `int` is undefined. -/
theorem merge_bufs_int_overflow :
    ∃ b, compile_expression (nested_lambdas 42) ["x"] = .ok b
      ∧ (2 ≤ b.buf_size ∧ b.buf_ptr ≤ b.buf_size)
      ∧ (2 ≤ (alloc_buffer 32).buf_size ∧ (alloc_buffer 32).buf_ptr ≤ (alloc_buffer 32).buf_size)
      ∧ (alloc_buffer 32).buf_size + b.buf_size * 3 / 2 = 2524170861
      ∧ INT_MAX < (alloc_buffer 32).buf_size + b.buf_size * 3 / 2
      ∧ merge_bufs (alloc_buffer 32) b = .error .int_overflow := by
  obtain ⟨b, eb, wb, zb, _⟩ := nested_lambdas_compile 41 ["x"]
    (by rw [nested_size_values.1]; decide)
  have zb1 : b.buf_size = 1682780553 := by rw [zb, nested_size_values.1]
  have hsum : (alloc_buffer 32).buf_size + b.buf_size * 3 / 2 = 2524170861 := by
    rw [zb1]; rfl
  have hbig : INT_MAX < (alloc_buffer 32).buf_size + b.buf_size * 3 / 2 := by
    rw [hsum]; decide
  exact ⟨b, eb, ⟨wb.2.2.1, wb.2.1⟩, ⟨by decide, by decide⟩, hsum, hbig,
    merge_bufs_overflow (alloc_buffer 32) b hbig⟩

/-- C20, amended: the buffers of `alloc_buffer(2)` and `alloc_buffer(32)` satisfy the
invariant (`2 <= buf_size <= INT_MAX`, `buf_ptr <= buf_size`, block of `buf_size`
words).  On a buffer that satisfies it, and whose enlarged size `floor(1.5 * buf_size)`
is at most `INT_MAX` when `buf_ptr >= buf_size`, `add_to_buffer` stays inside the
block, keeps the invariant, sets `buf_size` to `floor(1.5 * buf_size)` exactly when
`buf_ptr >= buf_size`, which puts `buf_size` above `buf_ptr` before the write, stores
the value at index `buf_ptr` and keeps the earlier words; when the enlarged size is
above `INT_MAX` it returns no buffer.  On two such buffers with
`buf_a.buf_size + floor(1.5 * buf_b.buf_size)` at most `INT_MAX`, `merge_bufs` keeps
the invariant and gives the words of `buf_a` followed by those of `buf_b`, with
`buf_ptr` the sum of both and `buf_size` that sum of sizes; when the sum of sizes is
above `INT_MAX` it returns no buffer.  Every buffer that `compile_expression` returns
satisfies the invariant. -/
theorem buffer_capacity_invariant :
    (alloc_buffer 2).wf ∧ (alloc_buffer 32).wf
    ∧ (∀ (b : buffer) (val : Int), b.wf →
        (b.buf_ptr ≥ b.buf_size → b.buf_size * 3 / 2 ≤ INT_MAX) →
        ∃ r, add_to_buffer b val = .ok r ∧ r.wf
        ∧ r.buf_size = (if b.buf_ptr ≥ b.buf_size then b.buf_size * 3 / 2 else b.buf_size)
        ∧ b.buf_ptr < r.buf_size ∧ r.buf.get? b.buf_ptr = some val
        ∧ r.words = b.words ++ [val] ∧ r.buf_ptr = b.buf_ptr + 1)
    ∧ (∀ (b : buffer) (val : Int), b.buf_ptr ≥ b.buf_size → INT_MAX < b.buf_size * 3 / 2 →
        add_to_buffer b val = .error .int_overflow)
    ∧ (∀ buf_a buf_b : buffer, buf_a.wf → buf_b.wf →
        buf_a.buf_size + buf_b.buf_size * 3 / 2 ≤ INT_MAX →
        ∃ r, merge_bufs buf_a buf_b = .ok r ∧ r.wf
          ∧ r.words = buf_a.words ++ buf_b.words
          ∧ r.buf_ptr = buf_a.buf_ptr + buf_b.buf_ptr ∧ r.buf_ptr ≤ r.buf_size
          ∧ r.buf_size = buf_a.buf_size + buf_b.buf_size * 3 / 2)
    ∧ (∀ buf_a buf_b : buffer, INT_MAX < buf_a.buf_size + buf_b.buf_size * 3 / 2 →
        merge_bufs buf_a buf_b = .error .int_overflow)
    ∧ (∀ (e : expr) (chain : cenv) (b : buffer), compile_expression e chain = .ok b → b.wf) := by
  refine ⟨alloc_buffer_wf 2 (le_refl _) (by decide), alloc_buffer_wf 32 (by decide) (by decide),
    ?_, ?_, ?_, merge_bufs_overflow, compile_expression_wf⟩
  · intro b val h hfit
    obtain ⟨r, e, w, ws, hp, hs, hget⟩ := add_to_buffer_ok b val h hfit
    refine ⟨r, e, w, hs, ?_, hget, ws, hp⟩
    have h2 := w.2.1
    omega
  · intro b val hfull hbig
    exact add_to_buffer_overflow b val hfull hbig
  · intro a b ha hb hfit
    obtain ⟨r, e, w, ws, hp, hs⟩ := merge_bufs_ok a b ha hb hfit
    exact ⟨r, e, w, ws, hp, w.2.1, hs⟩

/-! ## Relocation (C12) -/

/-- C12: for word sequences `Q`, `P`, `R` and a state whose `pc` addresses a word of `P`
(and, when that word is an opcode with an inline operand, the operand is in `P` too):
one step on `Q ++ P ++ R` from the state moved by the length of `Q` is the step on `P`
alone, moved by the length of `Q`; if the step on `P` leaves defined behaviour, so does
the moved one, in the same way.  The move adds the length of `Q` to `pc`, to every
address value, to every closure body address and to every return-stack entry, so `JMP`
and `GET_REL_ADDR` reach their stand-alone targets plus the offset.  And the words of
operand and operator occur unchanged in the code of an application: the operand's at
offset 0, the operator's right after them. -/
theorem relocation_invariance (Q P R : List Int) (s : vm)
    (h0 : 0 ≤ s.pc) (h1 : s.pc < P.length)
    (h2 : ∀ w op, fetch P s.pc = .ok w → opcode.of_word w = some op → op.operands = 1 →
      s.pc + 1 < P.length) :
    step (Q ++ P ++ R) (s.shift Q.length) = (step P s).map (vm.shift Q.length)
    ∧ (∀ (f a : expr) (chain : cenv) (b : buffer),
        compile_expression (.APPLICATION f a) chain = .ok b →
        ∃ ba bf, compile_expression a chain = .ok ba ∧ compile_expression f chain = .ok bf
          ∧ (∃ R1, b.words = [] ++ ba.words ++ R1)
          ∧ (∃ R2, b.words = ba.words ++ bf.words ++ R2)) := by
  refine ⟨step_shift Q P R s h0 h1 h2, ?_⟩
  intro f a chain b hc
  obtain ⟨ba, bf, ha, hf, ws⟩ := compile_application_words f a chain b hc
  refine ⟨ba, bf, ha, hf, ⟨bf.words ++ [opcode.DUP.code, opcode.GET_CLOSURE_ENV.code,
    opcode.PUSH_ENV.code, opcode.SWAP.code, opcode.EXTEND_ENV.code,
    opcode.GET_CLOSURE_CODE.code, opcode.CALL.code], ?_⟩, ⟨_, ws⟩⟩
  rw [ws]
  simp

/-- C12 at the `JMP` of the code of `\y y`, placed after one other word. -/
theorem relocation_invariance_witness :
    ((0 : Int) ≤ (⟨4, .NULL, [.CLOSURE 6 .NULL], [], [7]⟩ : vm).pc
      ∧ (⟨4, .NULL, [.CLOSURE 6 .NULL], [], [7]⟩ : vm).pc
          < ([13, 6, 9, 10, 2, 6, 5, 0, 8, 4] : List Int).length)
    ∧ step ([9] ++ [13, 6, 9, 10, 2, 6, 5, 0, 8, 4] ++ [])
        ((⟨4, .NULL, [.CLOSURE 6 .NULL], [], [7]⟩ : vm).shift ([9] : List Int).length)
      = (step [13, 6, 9, 10, 2, 6, 5, 0, 8, 4] ⟨4, .NULL, [.CLOSURE 6 .NULL], [], [7]⟩).map
          (vm.shift ([9] : List Int).length)
    ∧ step ([9] ++ [13, 6, 9, 10, 2, 6, 5, 0, 8, 4] ++ [])
        ((⟨4, .NULL, [.CLOSURE 6 .NULL], [], [7]⟩ : vm).shift ([9] : List Int).length)
      = .ok ⟨11, .NULL, [.CLOSURE 7 .NULL], [], [8]⟩ :=
  ⟨⟨by decide, by decide⟩,
    (relocation_invariance [9] [13, 6, 9, 10, 2, 6, 5, 0, 8, 4] []
      ⟨4, .NULL, [.CLOSURE 6 .NULL], [], [7]⟩ (by decide) (by decide)
      (fun _ _ _ _ _ => by decide)).1, rfl⟩

/-- Reading a concatenation at a position inside its first part. -/
theorem get?_append_lt {α : Type} (l1 l2 : List α) (n : Nat) (h : n < l1.length) :
    (l1 ++ l2).get? n = l1.get? n := by
  simp [List.getElem?_append_left h]

/-- What the first position of a name in the chain of an occurrence says about the hop
count: it is within the chain, it is below the number of enclosing lambdas exactly when
one of them binds the name, and then it is the position of the innermost such lambda. -/
theorem first_hop_bounds (chain : cenv) (n : Int) (o : String × List String)
    (h : first_hop chain n o) :
    0 ≤ n ∧ n < (chain.length : Int) + o.2.length
      ∧ (n < (o.2.length : Int) ↔ o.1 ∈ o.2)
      ∧ (o.1 ∈ o.2 → o.2.get? n.toNat = some o.1
          ∧ ∀ j, j < n.toNat → o.2.get? j ≠ some o.1) := by
  obtain ⟨k, rfl, hk, hfirst⟩ := h
  have hlen : k < (o.2 ++ chain).length := by
    rcases Nat.lt_or_ge k (o.2 ++ chain).length with h1 | h1
    · exact h1
    · rw [List.get?_eq_none.mpr h1] at hk; cases hk
  simp only [List.length_append] at hlen
  have hiff : k < o.2.length ↔ o.1 ∈ o.2 := by
    constructor
    · intro hlt
      rw [get?_append_lt _ _ _ hlt] at hk
      exact List.get?_mem hk
    · intro hmem
      obtain ⟨j, hj⟩ := List.mem_iff_get?.mp hmem
      have hjlt : j < o.2.length := by
        rcases Nat.lt_or_ge j o.2.length with h1 | h1
        · exact h1
        · rw [List.get?_eq_none.mpr h1] at hj; cases hj
      by_contra hge
      have hjk : j < k := by omega
      apply hfirst j hjk
      rw [get?_append_lt _ _ _ hjlt]
      exact hj
  refine ⟨by omega, by omega, ?_, ?_⟩
  · constructor
    · intro hlt
      exact hiff.mp (by omega)
    · intro hmem
      have := hiff.mpr hmem
      omega
  · intro hmem
    have hlt := hiff.mpr hmem
    simp only [Int.toNat_ofNat]
    refine ⟨by rw [← get?_append_lt _ _ _ hlt]; exact hk, ?_⟩
    intro j hj
    have hjlt : j < o.2.length := by omega
    rw [← get?_append_lt _ _ _ hjlt]
    exact hfirst j hj

/-! ## Operand placement and hop counts (C18, C19) -/

/-- C18: the output of a successful compilation decodes from offset 0 by the
opcode-driven rule (one operand word after `ENV_LOOKUP`, `JMP` and `GET_REL_ADDR`, none
after the others) exactly up to its end; every instruction address is inside the
output and holds the word of its opcode; and for every `JMP` or `GET_REL_ADDR` at
address `a` with operand `d`, `a + d` is between 0 and the length of the output and is
that length or the address of a decoded instruction. -/
theorem operand_placement (e : expr) (chain : cenv) (b : buffer)
    (hc : compile_expression e chain = .ok b) :
    ∃ is, decode 0 b.words = some is
      ∧ (∀ i ∈ is, i.addr < b.words.length ∧ b.words.get? i.addr = some i.op.code)
      ∧ (∀ i ∈ is, i.op = opcode.JMP ∨ i.op = opcode.GET_REL_ADDR →
          ∀ d, i.operand = some d →
            0 ≤ (i.addr : Int) + d ∧ (i.addr : Int) + d ≤ b.words.length
            ∧ ((i.addr : Int) + d = b.words.length
              ∨ ∃ j ∈ is, (j.addr : Int) = (i.addr : Int) + d)) := by
  obtain ⟨_, hd⟩ := compile_decodes e chain b hc
  obtain ⟨is, his, ht, _⟩ := hd 0
  have haddr := decode_addr b.words.length b.words 0 is (le_refl _) his
  refine ⟨is, his, ?_, ?_⟩
  · intro i hi
    obtain ⟨_, a2, a3⟩ := haddr i hi
    exact ⟨by omega, by simpa using a3⟩
  · intro i hi hjump d hdop
    rcases ht i hi hjump d hdop with h | ⟨j, hj, hjd⟩
    · simp only [Nat.cast_zero, zero_add] at h
      exact ⟨by omega, by omega, Or.inl h⟩
    · obtain ⟨_, a2, _⟩ := haddr j hj
      exact ⟨by omega, by omega, Or.inr ⟨j, hj, hjd⟩⟩

/-- C18 at the code of `\y y` under the empty chain. -/
theorem operand_placement_witness :
    compile_expression (.LAMBDA "y" (.SYMBOL "y")) []
      = .ok ⟨38, 10, [13, 6, 9, 10, 2, 6, 5, 0, 8, 4] ++ List.replicate 28 0⟩
    ∧ ∃ is, decode 0 (⟨38, 10, [13, 6, 9, 10, 2, 6, 5, 0, 8, 4] ++ List.replicate 28 0⟩
          : buffer).words = some is
      ∧ (∀ i ∈ is, i.addr < (⟨38, 10, [13, 6, 9, 10, 2, 6, 5, 0, 8, 4] ++ List.replicate 28 0⟩
            : buffer).words.length
          ∧ (⟨38, 10, [13, 6, 9, 10, 2, 6, 5, 0, 8, 4] ++ List.replicate 28 0⟩
            : buffer).words.get? i.addr = some i.op.code)
      ∧ (∀ i ∈ is, i.op = opcode.JMP ∨ i.op = opcode.GET_REL_ADDR →
          ∀ d, i.operand = some d →
            0 ≤ (i.addr : Int) + d
            ∧ (i.addr : Int) + d ≤ (⟨38, 10, [13, 6, 9, 10, 2, 6, 5, 0, 8, 4]
                ++ List.replicate 28 0⟩ : buffer).words.length
            ∧ ((i.addr : Int) + d = (⟨38, 10, [13, 6, 9, 10, 2, 6, 5, 0, 8, 4]
                ++ List.replicate 28 0⟩ : buffer).words.length
              ∨ ∃ j ∈ is, (j.addr : Int) = (i.addr : Int) + d)) :=
  ⟨rfl, operand_placement (.LAMBDA "y" (.SYMBOL "y")) []
    ⟨38, 10, [13, 6, 9, 10, 2, 6, 5, 0, 8, 4] ++ List.replicate 28 0⟩ rfl⟩

/-- C19: the output of a successful compilation decodes, and its `ENV_LOOKUP` operands
pair up, in order, with the symbol occurrences in emission order so that for each
operand `n` and its occurrence with `d` enclosing lambdas: `0 <= n < |chain| + d`;
`n < d` exactly when one of the enclosing lambdas binds the name; and in that case the
lambda `n` levels out binds the name and none of the `n` lambdas inside it does. -/
theorem hop_bound (e : expr) (chain : cenv) (b : buffer)
    (hc : compile_expression e chain = .ok b) :
    ∃ is, decode 0 b.words = some is
      ∧ List.Forall₂
          (fun (n : Int) (o : String × List String) =>
            0 ≤ n ∧ n < (chain.length : Int) + o.2.length
            ∧ (n < (o.2.length : Int) ↔ o.1 ∈ o.2)
            ∧ (o.1 ∈ o.2 → o.2.get? n.toNat = some o.1
                ∧ ∀ j, j < n.toNat → o.2.get? j ≠ some o.1))
          (lookups is) (emitted e) := by
  obtain ⟨_, hd⟩ := compile_decodes e chain b hc
  obtain ⟨is, his, _, hl⟩ := hd 0
  exact ⟨is, his, List.Forall₂.imp (fun n o h => first_hop_bounds chain n o h) hl⟩

/-- C19 at `\x (x z)` under the chain `z`. -/
theorem hop_bound_witness :
    compile_expression (.LAMBDA "x" (.APPLICATION (.SYMBOL "x") (.SYMBOL "z"))) ["z"]
      = .ok ⟨54, 19, [13, 6, 9, 10, 2, 15, 5, 1, 5, 0, 0, 11, 7, 1, 6, 12, 3, 8, 4]
          ++ List.replicate 35 0⟩
    ∧ ∃ is, decode 0 (⟨54, 19, [13, 6, 9, 10, 2, 15, 5, 1, 5, 0, 0, 11, 7, 1, 6, 12, 3, 8, 4]
          ++ List.replicate 35 0⟩ : buffer).words = some is
      ∧ List.Forall₂
          (fun (n : Int) (o : String × List String) =>
            0 ≤ n ∧ n < ((["z"] : cenv).length : Int) + o.2.length
            ∧ (n < (o.2.length : Int) ↔ o.1 ∈ o.2)
            ∧ (o.1 ∈ o.2 → o.2.get? n.toNat = some o.1
                ∧ ∀ j, j < n.toNat → o.2.get? j ≠ some o.1))
          (lookups is)
          (emitted (.LAMBDA "x" (.APPLICATION (.SYMBOL "x") (.SYMBOL "z")))) :=
  ⟨rfl, hop_bound (.LAMBDA "x" (.APPLICATION (.SYMBOL "x") (.SYMBOL "z"))) ["z"]
    ⟨54, 19, [13, 6, 9, 10, 2, 15, 5, 1, 5, 0, 0, 11, 7, 1, 6, 12, 3, 8, 4]
      ++ List.replicate 35 0⟩ rfl⟩
/-! ## Chain depth at run time (C11) -/

/-- C11: the closed expression `(\g g \x (x \a x))` compiles under the empty chain, and
its code, run from program start, reaches after 27 steps the `ENV_LOOKUP 1` at address
12 (the `x` inside `\a x`) with an environment chain of one frame: the hop count is not
below the number of frames, the walk of one hop ends at `NULL`, and the read of the
value there leaves defined behaviour.  With any budget of at least 28 steps the
execution ends there. -/
theorem env_lookup_past_chain (extra : Nat) :
    (∃ b, compile_expression (.APPLICATION (.LAMBDA "g" (.SYMBOL "g"))
          (.LAMBDA "x" (.APPLICATION (.SYMBOL "x") (.LAMBDA "a" (.SYMBOL "x"))))) [] = .ok b
      ∧ steps b.words 27 ⟨0, .NULL, [], [], []⟩
          = .ok ⟨12, .frame (.CLOSURE 33 .NULL) .NULL, [],
              [.frame (.CLOSURE 33 .NULL) .NULL, .NULL], [26, 45]⟩
      ∧ fetch b.words 12 = .ok opcode.ENV_LOOKUP.code
      ∧ fetch b.words 13 = .ok 1
      ∧ (renv.frame (.CLOSURE 33 .NULL) .NULL).depth = 1
      ∧ step b.words ⟨12, .frame (.CLOSURE 33 .NULL) .NULL, [],
            [.frame (.CLOSURE 33 .NULL) .NULL, .NULL], [26, 45]⟩ = .error .null_env)
    ∧ main_pass (28 + extra) (.APPLICATION (.LAMBDA "g" (.SYMBOL "g"))
          (.LAMBDA "x" (.APPLICATION (.SYMBOL "x") (.LAMBDA "a" (.SYMBOL "x")))))
        = .ok (.undefined .null_env) := by
  obtain ⟨b, hc, hw⟩ : ∃ b, compile_expression (.APPLICATION (.LAMBDA "g" (.SYMBOL "g"))
        (.LAMBDA "x" (.APPLICATION (.SYMBOL "x") (.LAMBDA "a" (.SYMBOL "x"))))) [] = .ok b
      ∧ b.words = [13, 6, 9, 10, 2, 23, 13, 6, 9, 10, 2, 6, 5, 1, 8, 4, 5, 0, 0, 11, 7, 1,
          6, 12, 3, 8, 4, 13, 6, 9, 10, 2, 6, 5, 0, 8, 4, 0, 11, 7, 1, 6, 12, 3] := by
    set_option maxRecDepth 20000 in
    exact ⟨_, rfl, rfl⟩
  have h27 : steps b.words 27 ⟨0, .NULL, [], [], []⟩
      = .ok ⟨12, .frame (.CLOSURE 33 .NULL) .NULL, [],
          [.frame (.CLOSURE 33 .NULL) .NULL, .NULL], [26, 45]⟩ := by rw [hw]; rfl
  have hf : step b.words ⟨12, .frame (.CLOSURE 33 .NULL) .NULL, [],
      [.frame (.CLOSURE 33 .NULL) .NULL, .NULL], [26, 45]⟩ = .error .null_env := by
    rw [hw]; rfl
  refine ⟨⟨b, hc, h27, by rw [hw]; rfl, by rw [hw]; rfl, rfl, hf⟩, ?_⟩
  have hl := loop_fault_of_steps b.words .null_env 27 ⟨0, .NULL, [], [], []⟩ _ h27
    (by
      intro i hi
      rw [hw]
      interval_cases i <;> exact ⟨_, rfl, by decide⟩)
    (by rw [hw]; decide) hf (28 + extra) (by omega)
  simp [main_pass, hc, execute_program, vm.start, hl, bind, Except.bind, pure, Except.pure]

/-! ## Stack capacity (C15) -/

/-- C16: on the input `a.b)` `parse_symbol` returns the symbol `a` and leaves `.b)`
unread: the character `.` is in `reserved_chars` and ends the name (the claim and the
syntax comment of the source say the name is `a.b`).  The same holds after every
letter: a `.` directly after the first letter ends the name there.  An input that
starts with `(` takes the unexpected-character exit, as does the empty input. -/
theorem symbol_stops_at_dot :
    parse_symbol 2 ['a', '.', 'b', ')'] = .parsed (.SYMBOL "a") ['.', 'b', ')']
    ∧ (∀ (c : Char) (rest : List Char) (fuel : Nat), isalpha c = true →
        parse_symbol (fuel + 1) (c :: '.' :: rest)
          = .parsed (.SYMBOL (String.mk [c])) ('.' :: rest))
    ∧ parse_symbol 2 ['(', 'a', ')'] = .unexpected (some '(')
    ∧ parse_symbol 2 [] = .unexpected none := by
  refine ⟨rfl, ?_, rfl, rfl⟩
  intro c rest fuel hc
  simp [parse_symbol, getchar, hc, parse_symbol_loop, isspace, strchr_reserved,
    reserved_chars, ungetc]

end Compile

/-! # The interpreter: closures and their environments (C17) -/

namespace Interpret

/-- A larger depth budget does not change an evaluation that ended within the budget. -/
theorem eval_fuel_succ : ∀ (n : Nat) (e : expr) (environment : env) (h : heap),
    eval_expression n e environment h ≠ .running →
    eval_expression (n + 1) e environment h = eval_expression n e environment h
  | 0, _, _, _, hne => absurd rfl hne
  | n + 1, .SYMBOL _, _, _, _ => rfl
  | n + 1, .LAMBDA _ _ _, _, _, _ => rfl
  | n + 1, .APPLICATION operator operand, environment, h, hne => by
    have ih := eval_fuel_succ n
    simp only [eval_expression, eval_application] at hne ⊢
    cases h1 : eval_expression n operator environment h with
    | running => simp [h1] at hne
    | unbound_symbol s =>
      rw [ih operator environment h (by rw [h1]; simp), h1]
    | undefined =>
      rw [ih operator environment h (by rw [h1]; simp), h1]
    | value v hp1 =>
      rw [ih operator environment h (by rw [h1]; simp), h1]
      simp only [h1] at hne ⊢
      cases h2 : eval_expression n operand environment hp1 with
      | running => simp [h2] at hne
      | unbound_symbol s =>
        rw [ih operand environment hp1 (by rw [h2]; simp), h2]
      | undefined =>
        rw [ih operand environment hp1 (by rw [h2]; simp), h2]
      | value w hp2 =>
        rw [ih operand environment hp1 (by rw [h2]; simp), h2]
        simp only [h2] at hne ⊢
        cases v with
        | SYMBOL _ => rfl
        | APPLICATION _ _ => rfl
        | LAMBDA lam arg body =>
          simp only at hne ⊢
          cases h3 : List.lookup lam hp2 with
          | none => rfl
          | some operator_env =>
            simp only [h3] at hne ⊢
            exact ih body _ hp2 hne

/-- Any larger depth budget gives the same result. -/
theorem eval_fuel_add (n : Nat) (e : expr) (environment : env) (h : heap)
    (hne : eval_expression n e environment h ≠ .running) :
    ∀ k, eval_expression (n + k) e environment h = eval_expression n e environment h
  | 0 => rfl
  | k + 1 => by
    have ih := eval_fuel_add n e environment h hne k
    have e1 : n + (k + 1) = (n + k) + 1 := by omega
    rw [e1, eval_fuel_succ (n + k) e environment h (by rw [ih]; exact hne), ih]

/-- C17: evaluating `(\k (\c1 (\c2 (c1 c2) (k B)) (k A)) K)` with `K = \x \y x`,
`A = \a a`, `B = \b b` under the empty environment, with any depth budget of at least
6, returns the node of `B`, not that of `A`.  The node `\y x` (number 6) is evaluated
twice, by `(k A)` and then by `(k B)`; the second evaluation overwrites its `environ`
field, so the closure returned first, which is the same node, now binds `x` to `B`:
the last write for node 6 in the final heap is `x = B`, over the earlier `x = A`. -/
theorem closure_environment_overwritten (extra : Nat) :
    eval_expression (6 + extra) twice_applied [] []
      = .value (.LAMBDA 3 "b" (.SYMBOL "b"))
          [(6, [("x", .LAMBDA 3 "b" (.SYMBOL "b"))]),
            (3, [("c1", .LAMBDA 6 "y" (.SYMBOL "x")),
              ("k", .LAMBDA 5 "x" (.LAMBDA 6 "y" (.SYMBOL "x")))]),
            (2, [("c1", .LAMBDA 6 "y" (.SYMBOL "x")),
              ("k", .LAMBDA 5 "x" (.LAMBDA 6 "y" (.SYMBOL "x")))]),
            (6, [("x", .LAMBDA 4 "a" (.SYMBOL "a"))]),
            (4, [("k", .LAMBDA 5 "x" (.LAMBDA 6 "y" (.SYMBOL "x")))]),
            (1, [("k", .LAMBDA 5 "x" (.LAMBDA 6 "y" (.SYMBOL "x")))]),
            (5, []), (0, [])]
    ∧ expr.LAMBDA 3 "b" (.SYMBOL "b") ≠ expr.LAMBDA 4 "a" (.SYMBOL "a")
    ∧ print_expr (.LAMBDA 3 "b" (.SYMBOL "b")) = "\\b b" := by
  refine ⟨?_, by decide, by decide⟩
  have h6 : eval_expression 6 twice_applied [] []
      = .value (.LAMBDA 3 "b" (.SYMBOL "b"))
          [(6, [("x", .LAMBDA 3 "b" (.SYMBOL "b"))]),
            (3, [("c1", .LAMBDA 6 "y" (.SYMBOL "x")),
              ("k", .LAMBDA 5 "x" (.LAMBDA 6 "y" (.SYMBOL "x")))]),
            (2, [("c1", .LAMBDA 6 "y" (.SYMBOL "x")),
              ("k", .LAMBDA 5 "x" (.LAMBDA 6 "y" (.SYMBOL "x")))]),
            (6, [("x", .LAMBDA 4 "a" (.SYMBOL "a"))]),
            (4, [("k", .LAMBDA 5 "x" (.LAMBDA 6 "y" (.SYMBOL "x")))]),
            (1, [("k", .LAMBDA 5 "x" (.LAMBDA 6 "y" (.SYMBOL "x")))]),
            (5, []), (0, [])] := by
    set_option maxRecDepth 20000 in
    rfl
  rw [eval_fuel_add 6 twice_applied [] [] (by rw [h6]; simp) extra, h6]

end Interpret
